import Mathlib

/-!
# Verification of the Orderbook matching engine

A shallow embedding of the limit-order matching engine from this repository
(`src/OrderBook.cpp`, `src/Order.h`, `src/OrderModify.h`, `src/OrderBook.h`).

* `Order`, `OrderModify`, `TradeInfo`, `Trade` mirror the value classes.
* `Book` models the `Orderbook` state: `bids_` (a map from price to the
  per-price FIFO queue, iterated in descending price order) and `asks_`
  (ascending price order) are modelled as association lists kept sorted by
  their comparators.  The `orders_` by-id map and the `data_` (levels) index
  of the C++ are maintained in lock-step with the two sides and are therefore
  modelled as derived views (`Book.findOrder`, `Book.levelQuantity`).
* Machine integers: `Price` is `Int` (comparisons only, no arithmetic, so
  32-bit wraparound cannot occur), quantities are `Nat` (`uint32_t`; the only
  subtraction is guarded by `quantity ≤ remaining`, so no wraparound occurs).
-/

namespace OBook

/-- `Side` from `Side.h` (used by `src/OrderBook.cpp`). -/
inductive Side where
  | Buy
  | Sell
deriving DecidableEq, Repr

/-- `OrderType` from `OrderType.h` as used by `src/Order.h` and the spec §3. -/
inductive OrderType where
  | GoodTillCancel
  | FillAndKill
  | FillOrKill
  | GoodForDay
  | Market
deriving DecidableEq, Repr

/-- `Order` from `src/Order.h`: type, id, side, price, initial and remaining
quantity.  The constructor sets `remainingQuantity = initialQuantity`. -/
structure Order where
  orderType : OrderType
  orderId : Nat
  side : Side
  price : Int
  initialQuantity : Nat
  remainingQuantity : Nat
deriving DecidableEq, Repr

namespace Order

/-- `Order::IsFilled` (src/Order.h line 53). -/
def IsFilled (o : Order) : Bool := o.remainingQuantity == 0

/-- `Order::Fill` (src/Order.h lines 56-63): throws `std::logic_error` when
asked to fill more than the remaining quantity, otherwise subtracts. -/
def Fill (o : Order) (quantity : Nat) : Except String Order :=
  if quantity > o.remainingQuantity then
    Except.error ("Order (" ++ toString o.orderId ++
      ") cannot be filled for more than its remaining quantity.")
  else
    Except.ok { o with remainingQuantity := o.remainingQuantity - quantity }

/-- `Order::ToGoodTillCancel` (src/Order.h lines 66-74): throws unless the
order is a market order; otherwise sets the price and converts the type. -/
def ToGoodTillCancel (o : Order) (price : Int) : Except String Order :=
  if o.orderType ≠ OrderType.Market then
    Except.error ("Order (" ++ toString o.orderId ++
      ") cannot have its price adjusted, only market orders can.")
  else
    Except.ok { o with price := price, orderType := OrderType.GoodTillCancel }

end Order

/-- `OrderModify` from `src/OrderModify.h`. -/
structure OrderModify where
  orderId : Nat
  price : Int
  side : Side
  quantity : Nat
deriving DecidableEq, Repr

/-- `OrderModify::ToOrderPointer` (src/OrderModify.h lines 30-34): builds a
fresh `Order` from the modification's fields and the given type. -/
def OrderModify.ToOrderPointer (m : OrderModify) (type : OrderType) : Order :=
  ⟨type, m.orderId, m.side, m.price, m.quantity, m.quantity⟩

/-- `TradeInfo` (one leg of a trade). -/
structure TradeInfo where
  orderId : Nat
  price : Int
  quantity : Nat
deriving DecidableEq, Repr

/-- `Trade`: a bid leg and an ask leg. -/
structure Trade where
  bidTrade : TradeInfo
  askTrade : TradeInfo
deriving DecidableEq, Repr

/-- One price level: the key of the `std::map` entry and the FIFO queue
(`OrderPointers`, a `std::list`) of resting orders at that price. -/
abbrev Level := Int × List Order

/-- All orders of a side, in iteration order of the side's map:
price-priority order first, FIFO (time) order within a level. -/
def flattenOrders (ls : List Level) : List Order := ls.flatMap (fun l => l.2)

/-- The order ids of a side in priority order. -/
def flattenIds (ls : List Level) : List Nat :=
  (flattenOrders ls).map (fun o => o.orderId)

/-- Sum of remaining quantities of a queue. -/
def qtySum (os : List Order) : Nat := (os.map (fun o => o.remainingQuantity)).sum

/-- The `Orderbook` state (src/OrderBook.cpp lines 162-166): `bids_` sorted by
`std::greater<Price>` (descending keys), `asks_` sorted by `std::less<Price>`
(ascending keys).  The `orders_` map and the `data_` level index are derived
views of the two sides (the C++ keeps them consistent at every mutation). -/
structure Book where
  bids : List Level
  asks : List Level
deriving DecidableEq, Repr

namespace Book

/-- The empty book. -/
def empty : Book := ⟨[], []⟩

/-- All resting orders (contents of the C++ `orders_` map). -/
def allOrders (b : Book) : List Order := flattenOrders b.bids ++ flattenOrders b.asks

/-- All resting order ids. -/
def ids (b : Book) : List Nat := (b.allOrders).map (fun o => o.orderId)

/-- `orders_.at(id)`: look an order up by id. -/
def findOrder (b : Book) (id : Nat) : Option Order :=
  (b.allOrders).find? (fun o => o.orderId == id)

/-- `orders_.contains(id)`. -/
def contains (b : Book) (id : Nat) : Bool := (b.findOrder id).isSome

/-- `Orderbook::Size` / `orders_.size()`: number of resting orders. -/
def orderCount (b : Book) : Nat := (b.allOrders).length

/-- The quantity entry of the levels index `data_` at a price: total
remaining quantity of both sides at that price (spec §4.5). -/
def levelQuantity (b : Book) (p : Int) : Nat :=
  qtySum ((flattenOrders b.bids).filter (fun o => o.price == p)) +
  qtySum ((flattenOrders b.asks).filter (fun o => o.price == p))

/-- `Orderbook::CanMatch` (src/OrderBook.cpp lines 169-181): a buy matches iff
the best ask exists and `price ≥ bestAsk`; a sell iff `price ≤ bestBid`. -/
def CanMatch (b : Book) (side : Side) (price : Int) : Bool :=
  match side with
  | Side.Buy =>
    match b.asks with
    | [] => false
    | (bestAsk, _) :: _ => price ≥ bestAsk
  | Side.Sell =>
    match b.bids with
    | [] => false
    | (bestBid, _) :: _ => price ≤ bestBid

end Book

/-- One iteration's effect on one side of the book (src/OrderBook.cpp lines
216-236, identical for both sides): reduce the head order's remaining
quantity by the traded `quantity`, pop it if it is filled, and erase the
price level if its queue becomes empty. -/
def stepSide (p : Int) (o : Order) (rest : List Order) (tl : List Level)
    (quantity : Nat) : List Level :=
  let oF : Order := { o with remainingQuantity := o.remainingQuantity - quantity }
  let newQ := if oF.IsFilled then rest else oF :: rest
  if newQ.isEmpty then tl else (p, newQ) :: tl

/-- One matching pass of `Orderbook::MatchOrders` (src/OrderBook.cpp lines
184-244), written as a fuel-indexed recursion.  Each iteration pairs the head
order of the best-bid queue with the head order of the best-ask queue while
`bidPrice ≥ askPrice`, trades `quantity = min` of the remaining quantities,
reduces both legs (`Order::Fill` cannot throw here because
`quantity ≤ remaining`, see `Order.Fill_eq_ok`), pops filled legs, erases
emptied price levels, and records the trade.  Every iteration removes at
least one resting order (the leg attaining the min reaches zero), so any
`fuel` larger than the number of resting orders reaches the loop's natural
exit.  The C++ inner loop re-reads the same two levels until one queue
empties, which is exactly this recursion because a partially consumed level
keeps its key and stays at the head of its side.  Every exit of the C++ loop
leaves the book as it stands and returns the accumulated trades; the
empty-queue exits are unreachable when every resting level has a non-empty
queue (the class invariant; the C++ would spin forever there). -/
def matchLoop : Nat → List Level → List Level →
    List Trade × List Level × List Level
  | 0, bids, asks => ([], bids, asks)
  | _ + 1, [], asks => ([], [], asks)
  | _ + 1, b :: btl, [] => ([], b :: btl, [])
  | _ + 1, (bidPrice, []) :: btl, a :: atl =>
    ([], (bidPrice, []) :: btl, a :: atl)
  | _ + 1, (bidPrice, bid :: bqRest) :: btl, (askPrice, []) :: atl =>
    ([], (bidPrice, bid :: bqRest) :: btl, (askPrice, []) :: atl)
  | fuel + 1, (bidPrice, bid :: bqRest) :: btl, (askPrice, ask :: aqRest) :: atl =>
    if bidPrice < askPrice then
      ([], (bidPrice, bid :: bqRest) :: btl, (askPrice, ask :: aqRest) :: atl)
    else
      let quantity := min bid.remainingQuantity ask.remainingQuantity
      let newBids := stepSide bidPrice bid bqRest btl quantity
      let newAsks := stepSide askPrice ask aqRest atl quantity
      let rest := matchLoop fuel newBids newAsks
      (Trade.mk ⟨bid.orderId, bid.price, quantity⟩
                ⟨ask.orderId, ask.price, quantity⟩ :: rest.1,
       rest.2.1, rest.2.2)

/-- Insert an order at the back of the queue for its price on one side
(`bids_[price]` / `asks_[price]` followed by `push_back`, src/OrderBook.cpp
lines 281-292).  `before p q` is the side's map comparator: `p` sorts
strictly before an existing key `q`. -/
def addAtLevel (before : Int → Int → Bool) :
    List Level → Int → Order → List Level
  | [], p, o => [(p, [o])]
  | (q, os) :: rest, p, o =>
    if p = q then (q, os ++ [o]) :: rest
    else if before p q then (p, [o]) :: (q, os) :: rest
    else (q, os) :: addAtLevel before rest p o

/-- Remove the first order with the given id from a queue
(`orders.erase(iterator)`). -/
def removeFirstId : List Order → Nat → List Order
  | [], _ => []
  | o :: os, id => if o.orderId = id then os else o :: removeFirstId os id

/-- Remove the order with the given id from the level keyed `price`, erasing
the level if its queue becomes empty (src/OrderBook.cpp lines 314-333). -/
def removeId : List Level → Int → Nat → List Level
  | [], _, _ => []
  | (q, os) :: rest, price, id =>
    if q = price then
      let os' := removeFirstId os id
      if os'.isEmpty then rest else (q, os') :: rest
    else (q, os) :: removeId rest price id

namespace Book

/-- `Orderbook::CancelOrder` (src/OrderBook.cpp lines 302-334): a no-op when
the id is absent; otherwise erases the order from `orders_` and from the
per-price queue on its side, dropping the price level if it empties. -/
def CancelOrder (b : Book) (orderId : Nat) : Book :=
  match b.findOrder orderId with
  | none => b
  | some order =>
    if order.side = Side.Sell then
      { b with asks := removeId b.asks order.price orderId }
    else
      { b with bids := removeId b.bids order.price orderId }

/-- Insertion step of `Orderbook::AddOrder` (src/OrderBook.cpp lines
281-295): append the order to the per-price queue on its side. -/
def insertOrder (b : Book) (o : Order) : Book :=
  if o.side = Side.Buy then
    { b with bids := addAtLevel (fun p q => q < p) b.bids o.price o }
  else
    { b with asks := addAtLevel (fun p q => p < q) b.asks o.price o }

/-- The post-match sweep on the bid side (src/OrderBook.cpp lines 246-253):
if the head order of the best-bid queue is a FillAndKill order, cancel it. -/
def sweepTopFAKBids (b : Book) : Book :=
  match b.bids with
  | (_, o :: _) :: _ =>
    if o.orderType = OrderType.FillAndKill then b.CancelOrder o.orderId else b
  | _ => b

/-- The post-match sweep on the ask side (src/OrderBook.cpp lines 256-262). -/
def sweepTopFAKAsks (b : Book) : Book :=
  match b.asks with
  | (_, o :: _) :: _ =>
    if o.orderType = OrderType.FillAndKill then b.CancelOrder o.orderId else b
  | _ => b

/-- `Orderbook::MatchOrders` (src/OrderBook.cpp lines 184-265): run the
matching loop, then sweep a FillAndKill order left resting at the top of
either side (lines 246-262; the bid side is swept first and its cancellation
is visible to the ask-side sweep).  The fuel `orderCount + 1` exceeds the
number of resting orders, so the loop reaches its natural exit. -/
def MatchOrders (b : Book) : List Trade × Book :=
  let r := matchLoop (b.orderCount + 1) b.bids b.asks
  (r.1, sweepTopFAKAsks (sweepTopFAKBids ⟨r.2.1, r.2.2⟩))

/-- Insert and match (the tail of `Orderbook::AddOrder`, src/OrderBook.cpp
lines 278-298). -/
def addAndMatch (b : Book) (o : Order) : List Trade × Book :=
  (b.insertOrder o).MatchOrders

end Book

/-- Modelled from the spec: the body of `Orderbook::CanFullyFill`, which is
declared in src/OrderBook.h line 62 but whose definition is not in src.
Spec §4.5: "iterate opposite-side prices in priority order; for each
reachable price, accumulate `levels[p].quantity`; return true as soon as the
sum ≥ needed"; iteration stops at the first unreachable price (priority
order).  `lvlQty` is the levels-index quantity, `reach` the reachability
test. -/
def canFullyFillLoop (lvlQty : Int → Nat) (reach : Int → Bool) (needed : Nat) :
    List Level → Nat → Bool
  | [], acc => decide (needed ≤ acc)
  | (p, _) :: rest, acc =>
    if reach p then
      let acc' := acc + lvlQty p
      if needed ≤ acc' then true else canFullyFillLoop lvlQty reach needed rest acc'
    else decide (needed ≤ acc)

namespace Book

/-- Modelled from the spec: `Orderbook::CanFullyFill` (declared in
src/OrderBook.h line 62; definition not in src).  Spec §4.5: walk the
opposite side's prices in priority order, accumulating the levels-index
quantity of each reachable price (buy: ask prices ≤ `price`; sell: bid
prices ≥ `price`), and succeed iff the sum reaches `quantity`. -/
def CanFullyFill (b : Book) (side : Side) (price : Int) (quantity : Nat) : Bool :=
  match side with
  | Side.Buy => canFullyFillLoop b.levelQuantity (fun p => decide (p ≤ price)) quantity b.asks 0
  | Side.Sell => canFullyFillLoop b.levelQuantity (fun p => decide (price ≤ p)) quantity b.bids 0

end Book

/-- Modelled from the spec: the Market-order repricing walk of
`Orderbook::AddOrder` (the full AddOrder is declared in src/OrderBook.h
line 76; its definition is not in src).  Spec §4.2: "walk the opposite side
summing quantities until ≥ order quantity, recording the last price
reached"; returns `none` when the opposite side cannot fully fill. -/
def worstPriceLoop (needed : Nat) : List Level → Nat → Option Int
  | [], _ => none
  | (p, os) :: rest, acc =>
    let acc' := acc + qtySum os
    if needed ≤ acc' then some p else worstPriceLoop needed rest acc'

namespace Book

/-- Modelled from the spec: the worst reachable opposite price for a market
order (spec §4.2, Market bullet). -/
def worstOppositePrice (b : Book) (side : Side) (quantity : Nat) : Option Int :=
  match side with
  | Side.Buy => worstPriceLoop quantity b.asks 0
  | Side.Sell => worstPriceLoop quantity b.bids 0

/-- `Orderbook::AddOrder`.  The duplicate-id rejection, the FillAndKill
rejection, the insertion and the call to `MatchOrders` are from
src/OrderBook.cpp lines 268-299.  The FillOrKill and Market admission
branches are modelled from the spec (§4.2; the full `AddOrder` is declared
in src/OrderBook.h but its definition is not in src): a FillOrKill order is
rejected unless `CanFullyFill`; a Market order is repriced to the worst
reachable opposite price and converted with `Order::ToGoodTillCancel`
(src/Order.h lines 66-74, which cannot throw here since the order is a
market order), or rejected when the opposite side cannot fully fill. -/
def AddOrder (b : Book) (o : Order) : List Trade × Book :=
  if b.contains o.orderId then ([], b)
  else if o.orderType = OrderType.Market then
    match b.worstOppositePrice o.side o.initialQuantity with
    | none => ([], b)
    | some worst =>
      match o.ToGoodTillCancel worst with
      | Except.ok o' => b.addAndMatch o'
      | Except.error _ => ([], b)
  else if o.orderType = OrderType.FillAndKill ∧ ¬ b.CanMatch o.side o.price then
    ([], b)
  else if o.orderType = OrderType.FillOrKill ∧
      ¬ b.CanFullyFill o.side o.price o.initialQuantity then
    ([], b)
  else b.addAndMatch o

/-- `Orderbook::MatchOrder` in src/OrderBook.cpp lines 338-346 (declared as
`ModifyOrder` in src/OrderBook.h line 78): a no-op returning no trades when
the id is absent; otherwise read the existing order's type, cancel it, and
add a fresh order built from the modification and that type.  (The C++ reads
the type through a reference into the erased map entry; the intended
read-before-cancel order is modelled, as spec §4.4 states.) -/
def ModifyOrder (b : Book) (m : OrderModify) : List Trade × Book :=
  match b.findOrder m.orderId with
  | none => ([], b)
  | some existingOrder =>
    let b' := b.CancelOrder m.orderId
    b'.AddOrder (m.ToOrderPointer existingOrder.orderType)

end Book

/-! ## Invariants (spec §8) -/

/-- Every resting price level has a non-empty queue (the C++ erases a level
as soon as its queue empties, and creates levels only by `push_back`). -/
def levelsNE (ls : List Level) : Prop := ∀ l ∈ ls, l.2 ≠ []

/-- Keys of `bids_` enumerate in strictly descending order
(`std::greater<Price>`). -/
def sortedDesc (ls : List Level) : Prop := ls.Pairwise (fun a b => b.1 < a.1)

/-- Keys of `asks_` enumerate in strictly ascending order
(`std::less<Price>`). -/
def sortedAsc (ls : List Level) : Prop := ls.Pairwise (fun a b => a.1 < b.1)

/-- Every order rests in the queue keyed by its own price, on the side
matching its `side` field. -/
def coherent (s : Side) (ls : List Level) : Prop :=
  ∀ l ∈ ls, ∀ o ∈ l.2, o.price = l.1 ∧ o.side = s

namespace Book

/-- Well-formedness of the book state: both sides sorted by their map
comparators, no empty queues, orders keyed consistently, and no duplicate
order ids (spec §8 invariants 1-3). -/
structure WF (b : Book) : Prop where
  bidsSorted : sortedDesc b.bids
  asksSorted : sortedAsc b.asks
  bidsNE : levelsNE b.bids
  asksNE : levelsNE b.asks
  bidsCoh : coherent Side.Buy b.bids
  asksCoh : coherent Side.Sell b.asks
  idsNodup : b.ids.Nodup

/-- Spec §8 invariant 4: whenever both sides are non-empty, the highest bid
price is strictly below the lowest ask price. -/
def Uncrossed (b : Book) : Prop :=
  match b.bids, b.asks with
  | (bp, _) :: _, (ap, _) :: _ => bp < ap
  | _, _ => True

instance (b : Book) : Decidable b.Uncrossed := by
  unfold Uncrossed
  split <;> infer_instance

/-- Spec §8 invariant 5: every resting order has
`0 < remaining ≤ initial`. -/
def RemBounded (b : Book) : Prop :=
  ∀ o ∈ b.allOrders, 0 < o.remainingQuantity ∧
    o.remainingQuantity ≤ o.initialQuantity

/-- No FillAndKill order is resting in the book (spec §4.1: FillAndKill
orders never rest observably). -/
def NoRestingFAK (b : Book) : Prop :=
  ∀ o ∈ b.allOrders, o.orderType ≠ OrderType.FillAndKill

end Book

instance (ls : List Level) : Decidable (levelsNE ls) := by
  unfold levelsNE; infer_instance

instance (ls : List Level) : Decidable (sortedDesc ls) := by
  unfold sortedDesc; infer_instance

instance (ls : List Level) : Decidable (sortedAsc ls) := by
  unfold sortedAsc; infer_instance

instance (s : Side) (ls : List Level) : Decidable (coherent s ls) := by
  unfold coherent; infer_instance

instance (b : Book) : Decidable b.RemBounded := by
  unfold Book.RemBounded; infer_instance

instance (b : Book) : Decidable b.NoRestingFAK := by
  unfold Book.NoRestingFAK; infer_instance

instance (b : Book) : Decidable b.WF :=
  decidable_of_iff
    (sortedDesc b.bids ∧ sortedAsc b.asks ∧ levelsNE b.bids ∧ levelsNE b.asks ∧
      coherent Side.Buy b.bids ∧ coherent Side.Sell b.asks ∧ b.ids.Nodup)
    ⟨fun ⟨h1, h2, h3, h4, h5, h6, h7⟩ => ⟨h1, h2, h3, h4, h5, h6, h7⟩,
     fun ⟨h1, h2, h3, h4, h5, h6, h7⟩ => ⟨h1, h2, h3, h4, h5, h6, h7⟩⟩

/-! ## The matching-loop eliminator

Every exit of `matchLoop` returns the input book unchanged with no trades,
and the single recursive case performs one head-to-head match.  All
invariant proofs below run through this eliminator. -/

theorem matchLoop_elim
    (motive : List Level → List Level → List Trade × List Level × List Level → Prop)
    (exit : ∀ bids asks, motive bids asks ([], bids, asks))
    (step : ∀ fuel bp (bid : Order) bqRest btl ap (ask : Order) aqRest atl,
      ¬ bp < ap →
      motive (stepSide bp bid bqRest btl (min bid.remainingQuantity ask.remainingQuantity))
             (stepSide ap ask aqRest atl (min bid.remainingQuantity ask.remainingQuantity))
             (matchLoop fuel
               (stepSide bp bid bqRest btl (min bid.remainingQuantity ask.remainingQuantity))
               (stepSide ap ask aqRest atl (min bid.remainingQuantity ask.remainingQuantity))) →
      motive ((bp, bid :: bqRest) :: btl) ((ap, ask :: aqRest) :: atl)
        (Trade.mk ⟨bid.orderId, bid.price, min bid.remainingQuantity ask.remainingQuantity⟩
                  ⟨ask.orderId, ask.price, min bid.remainingQuantity ask.remainingQuantity⟩ ::
           (matchLoop fuel
             (stepSide bp bid bqRest btl (min bid.remainingQuantity ask.remainingQuantity))
             (stepSide ap ask aqRest atl (min bid.remainingQuantity ask.remainingQuantity))).1,
         (matchLoop fuel
             (stepSide bp bid bqRest btl (min bid.remainingQuantity ask.remainingQuantity))
             (stepSide ap ask aqRest atl (min bid.remainingQuantity ask.remainingQuantity))).2.1,
         (matchLoop fuel
             (stepSide bp bid bqRest btl (min bid.remainingQuantity ask.remainingQuantity))
             (stepSide ap ask aqRest atl (min bid.remainingQuantity ask.remainingQuantity))).2.2)) :
    ∀ fuel bids asks, motive bids asks (matchLoop fuel bids asks) := by
  intro fuel
  induction fuel with
  | zero => intro bids asks; exact exit bids asks
  | succ n ih =>
    intro bids asks
    match bids, asks with
    | [], asks =>
      simp only [matchLoop]
      exact exit [] asks
    | b :: btl, [] =>
      simp only [matchLoop]
      exact exit (b :: btl) []
    | (bp, []) :: btl, a :: atl =>
      simp only [matchLoop]
      exact exit ((bp, []) :: btl) (a :: atl)
    | (bp, bid :: bqRest) :: btl, (ap, []) :: atl =>
      simp only [matchLoop]
      exact exit ((bp, bid :: bqRest) :: btl) ((ap, []) :: atl)
    | (bp, bid :: bqRest) :: btl, (ap, ask :: aqRest) :: atl =>
      by_cases h : bp < ap
      · simp only [matchLoop, if_pos h]
        exact exit ((bp, bid :: bqRest) :: btl) ((ap, ask :: aqRest) :: atl)
      · simp only [matchLoop, if_neg h]
        exact step n bp bid bqRest btl ap ask aqRest atl h (ih _ _)

/-! ## Basic facts about the embedding -/

@[simp] theorem flattenOrders_nil : flattenOrders [] = [] := rfl

@[simp] theorem flattenOrders_cons (l : Level) (tl : List Level) :
    flattenOrders (l :: tl) = l.2 ++ flattenOrders tl := by
  simp [flattenOrders]

theorem flattenOrders_mem_level (ls : List Level) (o : Order)
    (h : o ∈ flattenOrders ls) : ∃ l ∈ ls, o ∈ l.2 := by
  induction ls with
  | nil => simp at h
  | cons hd tlist ih =>
    rcases List.mem_append.mp (by simpa using h) with h' | h'
    · exact ⟨hd, List.mem_cons_self _ _, h'⟩
    · rcases ih h' with ⟨l, hl, ho⟩
      exact ⟨l, List.mem_cons_of_mem _ hl, ho⟩

@[simp] theorem flattenIds_nil : flattenIds [] = [] := rfl

@[simp] theorem flattenIds_cons (l : Level) (tl : List Level) :
    flattenIds (l :: tl) = l.2.map (fun o => o.orderId) ++ flattenIds tl := by
  simp [flattenIds]

/-- `Order::Fill` succeeds exactly when the quantity fits, and then only
subtracts from the remaining quantity (used inside the matching loop). -/
theorem Order.Fill_eq_ok (o : Order) (q : Nat) (h : q ≤ o.remainingQuantity) :
    o.Fill q = Except.ok { o with remainingQuantity := o.remainingQuantity - q } := by
  simp [Order.Fill, Nat.not_lt.mpr h]

/-- `o'` is what is left of `o` after zero or more fills: every field agrees
except that the remaining quantity may have decreased. -/
def shadows (o' o : Order) : Prop :=
  o'.orderType = o.orderType ∧ o'.orderId = o.orderId ∧ o'.side = o.side ∧
  o'.price = o.price ∧ o'.initialQuantity = o.initialQuantity ∧
  o'.remainingQuantity ≤ o.remainingQuantity

theorem shadows_refl (o : Order) : shadows o o :=
  ⟨rfl, rfl, rfl, rfl, rfl, le_refl _⟩

theorem shadows_trans {o₁ o₂ o₃ : Order} (h₁ : shadows o₁ o₂) (h₂ : shadows o₂ o₃) :
    shadows o₁ o₃ := by
  obtain ⟨a1, a2, a3, a4, a5, a6⟩ := h₁
  obtain ⟨b1, b2, b3, b4, b5, b6⟩ := h₂
  exact ⟨a1.trans b1, a2.trans b2, a3.trans b3, a4.trans b4, a5.trans b5, a6.trans b6⟩

/-! ## Facts about one matching step (`stepSide`) -/

section StepSide

variable (p : Int) (o : Order) (rest : List Order) (tl : List Level) (q : Nat)

/-- Case characterization of the per-side matching step. -/
theorem stepSide_eq :
    stepSide p o rest tl q =
      if o.remainingQuantity - q = 0 then
        (if rest = [] then tl else (p, rest) :: tl)
      else
        (p, { o with remainingQuantity := o.remainingQuantity - q } :: rest) :: tl := by
  unfold stepSide
  by_cases hf : o.remainingQuantity - q = 0 <;> by_cases hr : rest = [] <;>
    simp [Order.IsFilled, hf, hr]

theorem stepSide_mem (x : Order) (hx : x ∈ flattenOrders (stepSide p o rest tl q)) :
    (x = { o with remainingQuantity := o.remainingQuantity - q } ∧
       o.remainingQuantity - q ≠ 0) ∨ x ∈ rest ∨ x ∈ flattenOrders tl := by
  rw [stepSide_eq] at hx
  by_cases hf : o.remainingQuantity - q = 0
  · by_cases hr : rest = []
    · simp [hf, hr] at hx
      exact Or.inr (Or.inr hx)
    · simp [hf, hr] at hx
      rcases hx with h | h
      · exact Or.inr (Or.inl h)
      · exact Or.inr (Or.inr h)
  · simp [hf] at hx
    rcases hx with h | h | h
    · exact Or.inl ⟨h, hf⟩
    · exact Or.inr (Or.inl h)
    · exact Or.inr (Or.inr h)

theorem stepSide_ids_sublist :
    List.Sublist (flattenIds (stepSide p o rest tl q)) (flattenIds ((p, o :: rest) :: tl)) := by
  rw [stepSide_eq]
  by_cases hf : o.remainingQuantity - q = 0
  · by_cases hr : rest = [] <;> simp [hf, hr]
  · simp [hf]

theorem stepSide_NE (h : levelsNE ((p, o :: rest) :: tl)) :
    levelsNE (stepSide p o rest tl q) := by
  rw [stepSide_eq]
  by_cases hf : o.remainingQuantity - q = 0
  · by_cases hr : rest = []
    · simp only [hf, hr, if_true, if_pos]
      exact fun l hl => h l (List.mem_cons_of_mem _ hl)
    · simp only [hf, hr, if_true, if_neg, reduceIte]
      intro l hl
      rcases List.mem_cons.mp hl with h' | h'
      · subst h'; exact hr
      · exact h l (List.mem_cons_of_mem _ h')
  · simp only [hf, reduceIte]
    intro l hl
    rcases List.mem_cons.mp hl with h' | h'
    · subst h'; simp
    · exact h l (List.mem_cons_of_mem _ h')

theorem stepSide_pairwise (r : Int → Int → Prop)
    (h : ((p, o :: rest) :: tl).Pairwise (fun a b => r a.1 b.1)) :
    (stepSide p o rest tl q).Pairwise (fun a b => r a.1 b.1) := by
  rcases List.pairwise_cons.mp h with ⟨hrel, htl⟩
  rw [stepSide_eq]
  by_cases hf : o.remainingQuantity - q = 0
  · by_cases hr : rest = []
    · simp only [hf, hr, reduceIte]
      exact htl
    · simp only [hf, hr, reduceIte]
      exact List.pairwise_cons.mpr ⟨fun b hb => hrel b hb, htl⟩
  · simp only [hf, reduceIte]
    exact List.pairwise_cons.mpr ⟨fun b hb => hrel b hb, htl⟩

theorem stepSide_coherent (s : Side) (h : coherent s ((p, o :: rest) :: tl)) :
    coherent s (stepSide p o rest tl q) := by
  have hhead := h (p, o :: rest) (List.mem_cons_self _ _)
  rw [stepSide_eq]
  by_cases hf : o.remainingQuantity - q = 0
  · by_cases hr : rest = []
    · simp only [hf, hr, reduceIte]
      exact fun l hl => h l (List.mem_cons_of_mem _ hl)
    · simp only [hf, hr, reduceIte]
      intro l hl
      rcases List.mem_cons.mp hl with h' | h'
      · subst h'
        exact fun o' ho' => hhead o' (List.mem_cons_of_mem _ ho')
      · exact h l (List.mem_cons_of_mem _ h')
  · simp only [hf, reduceIte]
    intro l hl
    rcases List.mem_cons.mp hl with h' | h'
    · subst h'
      intro o' ho'
      rcases List.mem_cons.mp ho' with h'' | h''
      · subst h''
        have := hhead o (List.mem_cons_self _ _)
        exact ⟨this.1, this.2⟩
      · exact hhead o' (List.mem_cons_of_mem _ h'')
    · exact h l (List.mem_cons_of_mem _ h')

theorem stepSide_shadow (x : Order)
    (hx : x ∈ flattenOrders (stepSide p o rest tl q)) :
    ∃ y ∈ flattenOrders ((p, o :: rest) :: tl), shadows x y := by
  rcases stepSide_mem p o rest tl q x hx with ⟨he, _⟩ | h | h
  · refine ⟨o, by simp, ?_⟩
    subst he
    exact ⟨rfl, rfl, rfl, rfl, rfl, Nat.sub_le _ _⟩
  · exact ⟨x, by simp [h], shadows_refl x⟩
  · exact ⟨x, by simp [h], shadows_refl x⟩

theorem stepSide_pos
    (h : ∀ x ∈ flattenOrders ((p, o :: rest) :: tl), 0 < x.remainingQuantity) :
    ∀ x ∈ flattenOrders (stepSide p o rest tl q), 0 < x.remainingQuantity := by
  intro x hx
  rcases stepSide_mem p o rest tl q x hx with ⟨he, hne⟩ | hm | hm
  · subst he
    exact Nat.pos_of_ne_zero hne
  · exact h x (by simp [hm])
  · exact h x (by simp [hm])

end StepSide

/-! ## Preservation lemmas for the matching loop -/

theorem matchLoop_ids_sublist (fuel : Nat) (bids asks : List Level) :
    List.Sublist (flattenIds (matchLoop fuel bids asks).2.1) (flattenIds bids) ∧
    List.Sublist (flattenIds (matchLoop fuel bids asks).2.2) (flattenIds asks) := by
  refine matchLoop_elim
    (motive := fun bids asks out =>
      List.Sublist (flattenIds out.2.1) (flattenIds bids) ∧
      List.Sublist (flattenIds out.2.2) (flattenIds asks))
    (fun bids asks => ⟨List.Sublist.refl _, List.Sublist.refl _⟩) ?_ fuel bids asks
  intro fuel bp bid bqRest btl ap ask aqRest atl hlt ih
  exact ⟨ih.1.trans (stepSide_ids_sublist _ _ _ _ _),
         ih.2.trans (stepSide_ids_sublist _ _ _ _ _)⟩

theorem matchLoop_shadow (fuel : Nat) (bids asks : List Level) :
    (∀ x ∈ flattenOrders (matchLoop fuel bids asks).2.1,
       ∃ y ∈ flattenOrders bids, shadows x y) ∧
    (∀ x ∈ flattenOrders (matchLoop fuel bids asks).2.2,
       ∃ y ∈ flattenOrders asks, shadows x y) := by
  refine matchLoop_elim
    (motive := fun bids asks out =>
      (∀ x ∈ flattenOrders out.2.1, ∃ y ∈ flattenOrders bids, shadows x y) ∧
      (∀ x ∈ flattenOrders out.2.2, ∃ y ∈ flattenOrders asks, shadows x y))
    (fun bids asks => ⟨fun x hx => ⟨x, hx, shadows_refl x⟩,
                       fun x hx => ⟨x, hx, shadows_refl x⟩⟩) ?_ fuel bids asks
  intro fuel bp bid bqRest btl ap ask aqRest atl hlt ih
  constructor
  · intro x hx
    obtain ⟨y, hy, hsh⟩ := ih.1 x hx
    obtain ⟨z, hz, hsh'⟩ := stepSide_shadow _ _ _ _ _ y hy
    exact ⟨z, hz, shadows_trans hsh hsh'⟩
  · intro x hx
    obtain ⟨y, hy, hsh⟩ := ih.2 x hx
    obtain ⟨z, hz, hsh'⟩ := stepSide_shadow _ _ _ _ _ y hy
    exact ⟨z, hz, shadows_trans hsh hsh'⟩

theorem matchLoop_pos (fuel : Nat) (bids asks : List Level)
    (hb : ∀ x ∈ flattenOrders bids, 0 < x.remainingQuantity)
    (ha : ∀ x ∈ flattenOrders asks, 0 < x.remainingQuantity) :
    (∀ x ∈ flattenOrders (matchLoop fuel bids asks).2.1, 0 < x.remainingQuantity) ∧
    (∀ x ∈ flattenOrders (matchLoop fuel bids asks).2.2, 0 < x.remainingQuantity) := by
  refine matchLoop_elim
    (motive := fun bids asks out =>
      (∀ x ∈ flattenOrders bids, 0 < x.remainingQuantity) →
      (∀ x ∈ flattenOrders asks, 0 < x.remainingQuantity) →
      (∀ x ∈ flattenOrders out.2.1, 0 < x.remainingQuantity) ∧
      (∀ x ∈ flattenOrders out.2.2, 0 < x.remainingQuantity))
    (fun bids asks hb ha => ⟨hb, ha⟩) ?_ fuel bids asks hb ha
  intro fuel bp bid bqRest btl ap ask aqRest atl hlt ih hb ha
  exact ih (stepSide_pos _ _ _ _ _ hb) (stepSide_pos _ _ _ _ _ ha)

theorem matchLoop_NE (fuel : Nat) (bids asks : List Level)
    (hb : levelsNE bids) (ha : levelsNE asks) :
    levelsNE (matchLoop fuel bids asks).2.1 ∧
    levelsNE (matchLoop fuel bids asks).2.2 := by
  refine matchLoop_elim
    (motive := fun bids asks out =>
      levelsNE bids → levelsNE asks → levelsNE out.2.1 ∧ levelsNE out.2.2)
    (fun bids asks hb ha => ⟨hb, ha⟩) ?_ fuel bids asks hb ha
  intro fuel bp bid bqRest btl ap ask aqRest atl hlt ih hb ha
  exact ih (stepSide_NE _ _ _ _ _ hb) (stepSide_NE _ _ _ _ _ ha)

theorem matchLoop_pairwise (fuel : Nat) (bids asks : List Level)
    (rb ra : Int → Int → Prop)
    (hb : bids.Pairwise (fun a b => rb a.1 b.1))
    (ha : asks.Pairwise (fun a b => ra a.1 b.1)) :
    (matchLoop fuel bids asks).2.1.Pairwise (fun a b => rb a.1 b.1) ∧
    (matchLoop fuel bids asks).2.2.Pairwise (fun a b => ra a.1 b.1) := by
  refine matchLoop_elim
    (motive := fun bids asks out =>
      bids.Pairwise (fun a b => rb a.1 b.1) →
      asks.Pairwise (fun a b => ra a.1 b.1) →
      out.2.1.Pairwise (fun a b => rb a.1 b.1) ∧
      out.2.2.Pairwise (fun a b => ra a.1 b.1))
    (fun bids asks hb ha => ⟨hb, ha⟩) ?_ fuel bids asks hb ha
  intro fuel bp bid bqRest btl ap ask aqRest atl hlt ih hb ha
  exact ih (stepSide_pairwise _ _ _ _ _ rb hb) (stepSide_pairwise _ _ _ _ _ ra ha)

theorem matchLoop_coherent (fuel : Nat) (bids asks : List Level)
    (hb : coherent Side.Buy bids) (ha : coherent Side.Sell asks) :
    coherent Side.Buy (matchLoop fuel bids asks).2.1 ∧
    coherent Side.Sell (matchLoop fuel bids asks).2.2 := by
  refine matchLoop_elim
    (motive := fun bids asks out =>
      coherent Side.Buy bids → coherent Side.Sell asks →
      coherent Side.Buy out.2.1 ∧ coherent Side.Sell out.2.2)
    (fun bids asks hb ha => ⟨hb, ha⟩) ?_ fuel bids asks hb ha
  intro fuel bp bid bqRest btl ap ask aqRest atl hlt ih hb ha
  exact ih (stepSide_coherent _ _ _ _ _ _ hb) (stepSide_coherent _ _ _ _ _ _ ha)

/-! ## Facts about insertion (`addAtLevel`) -/

section AddAtLevel

variable (before : Int → Int → Bool) (p : Int) (o : Order)

/-- Case characterization of insertion (conditions as propositions). -/
theorem addAtLevel_eq (q : Int) (os : List Order) (tlist : List Level) :
    addAtLevel before ((q, os) :: tlist) p o =
      if p = q then (q, os ++ [o]) :: tlist
      else if before p q then (p, [o]) :: (q, os) :: tlist
      else (q, os) :: addAtLevel before tlist p o := by
  conv_lhs => rw [addAtLevel]

theorem addAtLevel_ids_perm (ls : List Level) :
    List.Perm (flattenIds (addAtLevel before ls p o)) (flattenIds ls ++ [o.orderId]) := by
  induction ls with
  | nil => simp [addAtLevel]
  | cons hd tlist ih =>
    obtain ⟨q, os⟩ := hd
    rw [addAtLevel_eq]
    by_cases h1 : p = q
    · simp only [h1, reduceIte, flattenIds_cons, List.map_append, List.map_cons,
        List.map_nil]
      rw [List.append_assoc, List.append_assoc]
      exact List.Perm.append_left _
        (by simpa using (List.perm_append_singleton o.orderId (flattenIds tlist)).symm)
    · simp only [h1, reduceIte]
      by_cases h2 : before p q = true
      · rw [if_pos h2]
        simp only [flattenIds_cons, List.map_cons, List.map_nil]
        exact (List.perm_append_singleton o.orderId _).symm.trans (by simp)
      · rw [if_neg h2]
        simp only [flattenIds_cons]
        rw [List.append_assoc]
        exact List.Perm.append_left _ ih

theorem addAtLevel_NE (ls : List Level) (h : levelsNE ls) :
    levelsNE (addAtLevel before ls p o) := by
  induction ls with
  | nil =>
    intro l hl
    simp [addAtLevel] at hl
    subst hl
    simp
  | cons hd tlist ih =>
    obtain ⟨q, os⟩ := hd
    unfold addAtLevel
    by_cases h1 : p = q
    · simp only [h1, reduceIte]
      intro l hl
      rcases List.mem_cons.mp hl with h' | h'
      · subst h'; simp
      · exact h l (List.mem_cons_of_mem _ h')
    · simp only [h1, reduceIte]
      by_cases h2 : before p q = true
      · rw [if_pos h2]
        intro l hl
        rcases List.mem_cons.mp hl with h' | h'
        · subst h'; simp
        · exact h l h'
      · rw [if_neg h2]
        intro l hl
        rcases List.mem_cons.mp hl with h' | h'
        · subst h'
          exact h (q, os) (List.mem_cons_self _ _)
        · exact ih (fun l' hl' => h l' (List.mem_cons_of_mem _ hl')) l h'

theorem addAtLevel_keys (ls : List Level) (l : Level)
    (hl : l ∈ addAtLevel before ls p o) :
    l.1 = p ∨ ∃ l' ∈ ls, l.1 = l'.1 := by
  induction ls with
  | nil =>
    simp [addAtLevel] at hl
    subst hl
    exact Or.inl rfl
  | cons hd tlist ih =>
    obtain ⟨q, os⟩ := hd
    unfold addAtLevel at hl
    by_cases h1 : p = q
    · simp only [h1, reduceIte] at hl
      rcases List.mem_cons.mp hl with h' | h'
      · subst h'; exact Or.inr ⟨(q, os), List.mem_cons_self _ _, rfl⟩
      · exact Or.inr ⟨l, List.mem_cons_of_mem _ h', rfl⟩
    · simp only [h1, reduceIte] at hl
      by_cases h2 : before p q = true
      · rw [if_pos h2] at hl
        rcases List.mem_cons.mp hl with h' | h'
        · subst h'; exact Or.inl rfl
        · exact Or.inr ⟨l, h', rfl⟩
      · rw [if_neg h2] at hl
        rcases List.mem_cons.mp hl with h' | h'
        · subst h'; exact Or.inr ⟨(q, os), List.mem_cons_self _ _, rfl⟩
        · rcases ih h' with h'' | ⟨l', hl', he⟩
          · exact Or.inl h''
          · exact Or.inr ⟨l', List.mem_cons_of_mem _ hl', he⟩

theorem addAtLevel_pairwise (r : Int → Int → Prop)
    (htrans : ∀ a b c, r a b → r b c → r a c)
    (hbr : ∀ a b, before a b = true → r a b)
    (hbf : ∀ a b, before a b = false → a ≠ b → r b a)
    (ls : List Level) (h : ls.Pairwise (fun a b => r a.1 b.1)) :
    (addAtLevel before ls p o).Pairwise (fun a b => r a.1 b.1) := by
  induction ls with
  | nil => simp [addAtLevel]
  | cons hd tlist ih =>
    obtain ⟨q, os⟩ := hd
    rcases List.pairwise_cons.mp h with ⟨hrel, htl⟩
    unfold addAtLevel
    by_cases h1 : p = q
    · simp only [h1, reduceIte]
      exact List.pairwise_cons.mpr ⟨hrel, htl⟩
    · simp only [h1, reduceIte]
      by_cases h2 : before p q = true
      · rw [if_pos h2]
        refine List.pairwise_cons.mpr ⟨?_, List.pairwise_cons.mpr ⟨hrel, htl⟩⟩
        intro l hl
        rcases List.mem_cons.mp hl with h' | h'
        · subst h'; exact hbr p q h2
        · exact htrans _ _ _ (hbr p q h2) (hrel l h')
      · rw [if_neg h2]
        refine List.pairwise_cons.mpr ⟨?_, ih htl⟩
        intro l hl
        rcases addAtLevel_keys before p o tlist l hl with h' | ⟨l', hl', he⟩
        · rw [h']
          exact hbf p q (by simpa using h2) h1
        · rw [he]
          exact hrel l' hl'

theorem addAtLevel_coherent (s : Side) (ls : List Level)
    (h : coherent s ls) (hs : o.side = s) :
    coherent s (addAtLevel before ls o.price o) := by
  induction ls with
  | nil =>
    intro l hl
    simp [addAtLevel] at hl
    subst hl
    intro o' ho'
    simp at ho'
    subst ho'
    exact ⟨rfl, hs⟩
  | cons hd tlist ih =>
    obtain ⟨q, os⟩ := hd
    unfold addAtLevel
    by_cases h1 : o.price = q
    · simp only [h1, reduceIte]
      intro l hl
      rcases List.mem_cons.mp hl with h' | h'
      · subst h'
        intro o' ho'
        rcases List.mem_append.mp ho' with h'' | h''
        · exact h (q, os) (List.mem_cons_self _ _) o' h''
        · simp at h''
          subst h''
          exact ⟨h1, hs⟩
      · exact h l (List.mem_cons_of_mem _ h')
    · simp only [h1, reduceIte]
      by_cases h2 : before o.price q = true
      · rw [if_pos h2]
        intro l hl
        rcases List.mem_cons.mp hl with h' | h'
        · subst h'
          intro o' ho'
          simp at ho'
          subst ho'
          exact ⟨rfl, hs⟩
        · exact h l h'
      · rw [if_neg h2]
        intro l hl
        rcases List.mem_cons.mp hl with h' | h'
        · subst h'
          exact h (q, os) (List.mem_cons_self _ _)
        · exact ih (fun l' hl' => h l' (List.mem_cons_of_mem _ hl')) l h'

theorem addAtLevel_orders_mem (ls : List Level) (x : Order)
    (hx : x ∈ flattenOrders (addAtLevel before ls p o)) :
    x = o ∨ x ∈ flattenOrders ls := by
  induction ls with
  | nil =>
    simp [addAtLevel] at hx
    exact Or.inl hx
  | cons hd tlist ih =>
    obtain ⟨q, os⟩ := hd
    rw [addAtLevel_eq] at hx
    by_cases h1 : p = q
    · simp only [h1, reduceIte, flattenOrders_cons] at hx
      rcases List.mem_append.mp hx with h | h
      · rcases List.mem_append.mp h with h' | h'
        · exact Or.inr (by simp [h'])
        · simp at h'
          exact Or.inl h'
      · exact Or.inr (by simp [h])
    · simp only [h1, reduceIte] at hx
      by_cases h2 : before p q = true
      · rw [if_pos h2] at hx
        simp only [flattenOrders_cons] at hx
        rcases List.mem_append.mp hx with h | h
        · simp at h
          exact Or.inl h
        · exact Or.inr (by simpa using h)
      · rw [if_neg h2] at hx
        simp only [flattenOrders_cons] at hx
        rcases List.mem_append.mp hx with h | h
        · exact Or.inr (by simp [h])
        · rcases ih h with h' | h'
          · exact Or.inl h'
          · exact Or.inr (by simp [h'])

end AddAtLevel

/-! ## Facts about removal (`removeFirstId`, `removeId`) -/

theorem removeFirstId_sublist (os : List Order) (id : Nat) :
    List.Sublist (removeFirstId os id) os := by
  induction os with
  | nil => simp [removeFirstId]
  | cons o os ih =>
    unfold removeFirstId
    by_cases h : o.orderId = id
    · simp only [h, reduceIte]
      exact List.sublist_cons_self _ _
    · simp only [h, reduceIte]
      exact List.Sublist.cons₂ _ ih

theorem removeFirstId_not_mem (os : List Order) (id : Nat)
    (h : (os.map (fun o => o.orderId)).Nodup) :
    id ∉ (removeFirstId os id).map (fun o => o.orderId) := by
  induction os with
  | nil => simp [removeFirstId]
  | cons o os ih =>
    simp only [List.map_cons, List.nodup_cons] at h
    unfold removeFirstId
    by_cases he : o.orderId = id
    · simp only [he, reduceIte]
      rw [← he]
      exact h.1
    · simp only [he, reduceIte]
      simp only [List.map_cons, List.mem_cons]
      intro hc
      rcases hc with hc | hc
      · exact he hc.symm
      · exact ih h.2 hc

/-- Case characterization of `removeId` (conditions as propositions). -/
theorem removeId_eq (q : Int) (os : List Order) (tlist : List Level) (p : Int) (id : Nat) :
    removeId ((q, os) :: tlist) p id =
      if q = p then
        (if removeFirstId os id = [] then tlist
         else (q, removeFirstId os id) :: tlist)
      else (q, os) :: removeId tlist p id := by
  conv_lhs => rw [removeId]
  by_cases h1 : q = p <;> by_cases h2 : removeFirstId os id = [] <;>
    simp [h1, h2, List.isEmpty_iff]

theorem removeId_ids_sublist (ls : List Level) (p : Int) (id : Nat) :
    List.Sublist (flattenIds (removeId ls p id)) (flattenIds ls) := by
  induction ls with
  | nil => simp [removeId]
  | cons hd tlist ih =>
    obtain ⟨q, os⟩ := hd
    rw [removeId_eq]
    by_cases h1 : q = p
    · simp only [h1, reduceIte]
      by_cases h2 : removeFirstId os id = []
      · simp only [h2, reduceIte]
        simp only [flattenIds_cons]
        exact (List.sublist_append_right _ _)
      · simp only [h2, reduceIte]
        simp only [flattenIds_cons]
        exact List.Sublist.append ((removeFirstId_sublist os id).map _)
          (List.Sublist.refl _)
    · simp only [h1, reduceIte]
      simp only [flattenIds_cons]
      exact List.Sublist.append (List.Sublist.refl _) ih

theorem removeId_keys (ls : List Level) (p : Int) (id : Nat) (l : Level)
    (hl : l ∈ removeId ls p id) : ∃ l' ∈ ls, l.1 = l'.1 := by
  induction ls with
  | nil => simp [removeId] at hl
  | cons hd tlist ih =>
    obtain ⟨q, os⟩ := hd
    rw [removeId_eq] at hl
    by_cases h1 : q = p
    · simp only [h1, reduceIte] at hl
      by_cases h2 : removeFirstId os id = []
      · simp only [h2, reduceIte] at hl
        exact ⟨l, List.mem_cons_of_mem _ hl, rfl⟩
      · simp only [h2, reduceIte] at hl
        rcases List.mem_cons.mp hl with h' | h'
        · subst h'; exact ⟨(q, os), List.mem_cons_self _ _, h1.symm⟩
        · exact ⟨l, List.mem_cons_of_mem _ h', rfl⟩
    · simp only [h1, reduceIte] at hl
      rcases List.mem_cons.mp hl with h' | h'
      · subst h'; exact ⟨(q, os), List.mem_cons_self _ _, rfl⟩
      · rcases ih h' with ⟨l', hl', he⟩
        exact ⟨l', List.mem_cons_of_mem _ hl', he⟩

theorem removeId_NE (ls : List Level) (p : Int) (id : Nat) (h : levelsNE ls) :
    levelsNE (removeId ls p id) := by
  induction ls with
  | nil => simp [removeId]; exact h
  | cons hd tlist ih =>
    obtain ⟨q, os⟩ := hd
    rw [removeId_eq]
    by_cases h1 : q = p
    · simp only [h1, reduceIte]
      by_cases h2 : removeFirstId os id = []
      · simp only [h2, reduceIte]
        exact fun l hl => h l (List.mem_cons_of_mem _ hl)
      · simp only [h2, reduceIte]
        intro l hl
        rcases List.mem_cons.mp hl with h' | h'
        · subst h'
          simpa [List.isEmpty_iff] using h2
        · exact h l (List.mem_cons_of_mem _ h')
    · simp only [h1, reduceIte]
      intro l hl
      rcases List.mem_cons.mp hl with h' | h'
      · subst h'; exact h (q, os) (List.mem_cons_self _ _)
      · exact ih (fun l' hl' => h l' (List.mem_cons_of_mem _ hl')) l h'

theorem removeId_pairwise (ls : List Level) (p : Int) (id : Nat)
    (r : Int → Int → Prop) (h : ls.Pairwise (fun a b => r a.1 b.1)) :
    (removeId ls p id).Pairwise (fun a b => r a.1 b.1) := by
  induction ls with
  | nil => simp [removeId]
  | cons hd tlist ih =>
    obtain ⟨q, os⟩ := hd
    rcases List.pairwise_cons.mp h with ⟨hrel, htl⟩
    rw [removeId_eq]
    by_cases h1 : q = p
    · simp only [h1, reduceIte]
      by_cases h2 : removeFirstId os id = []
      · simp only [h2, reduceIte]
        exact htl
      · simp only [h2, reduceIte]
        exact List.pairwise_cons.mpr ⟨fun l hl => h1 ▸ hrel l hl, htl⟩
    · simp only [h1, reduceIte]
      refine List.pairwise_cons.mpr ⟨?_, ih htl⟩
      intro l hl
      rcases removeId_keys tlist p id l hl with ⟨l', hl', he⟩
      rw [he]
      exact hrel l' hl'

theorem removeId_coherent (ls : List Level) (p : Int) (id : Nat) (s : Side)
    (h : coherent s ls) : coherent s (removeId ls p id) := by
  induction ls with
  | nil => simpa [removeId] using h
  | cons hd tlist ih =>
    obtain ⟨q, os⟩ := hd
    rw [removeId_eq]
    by_cases h1 : q = p
    · simp only [h1, reduceIte]
      by_cases h2 : removeFirstId os id = []
      · simp only [h2, reduceIte]
        exact fun l hl => h l (List.mem_cons_of_mem _ hl)
      · simp only [h2, reduceIte]
        intro l hl
        rcases List.mem_cons.mp hl with h' | h'
        · subst h'
          intro o' ho'
          have : o' ∈ os := (removeFirstId_sublist os id).mem ho'
          exact h1 ▸ h (q, os) (List.mem_cons_self _ _) o' this
        · exact h l (List.mem_cons_of_mem _ h')
    · simp only [h1, reduceIte]
      intro l hl
      rcases List.mem_cons.mp hl with h' | h'
      · subst h'; exact h (q, os) (List.mem_cons_self _ _)
      · exact ih (fun l' hl' => h l' (List.mem_cons_of_mem _ hl')) l h'

/-! ## Book-level helper lemmas -/

@[simp] theorem Book.ids_eq (b : Book) :
    b.ids = flattenIds b.bids ++ flattenIds b.asks := by
  simp [Book.ids, Book.allOrders, flattenIds]

theorem Book.findOrder_some (b : Book) (id : Nat) (o : Order)
    (h : b.findOrder id = some o) : o ∈ b.allOrders ∧ o.orderId = id := by
  refine ⟨List.mem_of_find?_eq_some h, ?_⟩
  have := List.find?_some h
  simpa using this

theorem Book.findOrder_eq_none_iff (b : Book) (id : Nat) :
    b.findOrder id = none ↔ id ∉ b.ids := by
  constructor
  · intro h hmem
    rcases List.mem_map.mp (by simpa [Book.ids] using hmem) with ⟨o, ho, he⟩
    have := List.find?_eq_none.mp h o ho
    simp [he] at this
  · intro h
    apply List.find?_eq_none.mpr
    intro o ho hc
    exact h (by simp [Book.ids]; exact ⟨o, ho, by simpa using hc⟩)

theorem Book.contains_false_iff (b : Book) (id : Nat) :
    b.contains id = false ↔ id ∉ b.ids := by
  unfold Book.contains
  rw [← Book.findOrder_eq_none_iff]
  cases b.findOrder id <;> simp

/-- Every price of one side is below every price of the other side: the
strong form of the uncrossed invariant, equivalent to `Uncrossed` for sorted
books and stable under removals. -/
def Book.allKeysLt (b : Book) : Prop :=
  ∀ lb ∈ b.bids, ∀ la ∈ b.asks, lb.1 < la.1

theorem Book.allKeysLt_uncrossed (b : Book) (h : b.allKeysLt) : b.Uncrossed := by
  unfold Book.Uncrossed
  split
  · next bp bq btl ap aq atl hb ha =>
    exact h (bp, bq) (hb ▸ List.mem_cons_self _ _) (ap, aq) (ha ▸ List.mem_cons_self _ _)
  · trivial

/-- In a descending-sorted side, every key is at most the head key. -/
theorem sortedDesc_le_head (l : Level) (tl : List Level)
    (h : sortedDesc (l :: tl)) : ∀ l' ∈ l :: tl, l'.1 ≤ l.1 := by
  intro l' hl'
  rcases List.mem_cons.mp hl' with h' | h'
  · subst h'; exact le_refl _
  · exact le_of_lt ((List.pairwise_cons.mp h).1 l' h')

/-- In an ascending-sorted side, every key is at least the head key. -/
theorem sortedAsc_head_le (l : Level) (tl : List Level)
    (h : sortedAsc (l :: tl)) : ∀ l' ∈ l :: tl, l.1 ≤ l'.1 := by
  intro l' hl'
  rcases List.mem_cons.mp hl' with h' | h'
  · subst h'; exact le_refl _
  · exact le_of_lt ((List.pairwise_cons.mp h).1 l' h')

theorem Book.uncrossed_allKeysLt (b : Book) (hbs : sortedDesc b.bids)
    (has : sortedAsc b.asks) (h : b.Uncrossed) : b.allKeysLt := by
  intro lb hlb la hla
  rcases hb : b.bids with _ | ⟨bhd, btl⟩
  · rw [hb] at hlb; simp at hlb
  rcases ha : b.asks with _ | ⟨ahd, atl⟩
  · rw [ha] at hla; simp at hla
  have hU : bhd.1 < ahd.1 := by
    unfold Book.Uncrossed at h
    rw [hb, ha] at h
    exact h
  have h1 : lb.1 ≤ bhd.1 := sortedDesc_le_head bhd btl (hb ▸ hbs) lb (hb ▸ hlb)
  have h2 : ahd.1 ≤ la.1 := sortedAsc_head_le ahd atl (ha ▸ has) la (ha ▸ hla)
  omega

/-! ## Fuel sufficiency: the matching loop reaches its natural exit -/

theorem stepSide_length_le (p : Int) (o : Order) (rest : List Order)
    (tl : List Level) (q : Nat) :
    (flattenOrders (stepSide p o rest tl q)).length ≤
      (flattenOrders ((p, o :: rest) :: tl)).length := by
  rw [stepSide_eq]
  by_cases hf : o.remainingQuantity - q = 0
  · by_cases hr : rest = [] <;> simp [hf, hr]
  · simp [hf]

theorem stepSide_length_lt (p : Int) (o : Order) (rest : List Order)
    (tl : List Level) (q : Nat) (hf : o.remainingQuantity - q = 0) :
    (flattenOrders (stepSide p o rest tl q)).length <
      (flattenOrders ((p, o :: rest) :: tl)).length := by
  rw [stepSide_eq]
  by_cases hr : rest = [] <;> simp [hf, hr]

/-- With fuel exceeding the number of resting orders, the matching loop runs
to its natural exit and leaves an uncrossed book (the heads no longer cross).
Each iteration removes at least one resting order, so the fuel is never the
binding constraint. -/
theorem matchLoop_uncrossed (fuel : Nat) (bids asks : List Level)
    (hbNE : levelsNE bids) (haNE : levelsNE asks)
    (hfuel : (flattenOrders bids).length + (flattenOrders asks).length < fuel) :
    Book.Uncrossed ⟨(matchLoop fuel bids asks).2.1, (matchLoop fuel bids asks).2.2⟩ := by
  induction fuel generalizing bids asks with
  | zero => exact absurd hfuel (Nat.not_lt_zero _)
  | succ n ih =>
    match bids, asks with
    | [], asks =>
      simp only [matchLoop]
      trivial
    | b :: btl, [] =>
      simp only [matchLoop]
      unfold Book.Uncrossed
      split <;> simp_all
    | (bp, []) :: btl, a :: atl =>
      exact absurd rfl (hbNE (bp, []) (List.mem_cons_self _ _))
    | (bp, bid :: bqRest) :: btl, (ap, []) :: atl =>
      exact absurd rfl (haNE (ap, []) (List.mem_cons_self _ _))
    | (bp, bid :: bqRest) :: btl, (ap, ask :: aqRest) :: atl =>
      by_cases h : bp < ap
      · simp only [matchLoop, if_pos h]
        exact h
      · simp only [matchLoop, if_neg h]
        apply ih
        · exact stepSide_NE _ _ _ _ _ hbNE
        · exact stepSide_NE _ _ _ _ _ haNE
        · have hone : (flattenOrders (stepSide bp bid bqRest btl
              (min bid.remainingQuantity ask.remainingQuantity))).length <
              (flattenOrders ((bp, bid :: bqRest) :: btl)).length ∨
            (flattenOrders (stepSide ap ask aqRest atl
              (min bid.remainingQuantity ask.remainingQuantity))).length <
              (flattenOrders ((ap, ask :: aqRest) :: atl)).length := by
            rcases Nat.le_total bid.remainingQuantity ask.remainingQuantity with hle | hle
            · exact Or.inl (stepSide_length_lt _ _ _ _ _ (by omega))
            · exact Or.inr (stepSide_length_lt _ _ _ _ _ (by omega))
          have hb' := stepSide_length_le bp bid bqRest btl
            (min bid.remainingQuantity ask.remainingQuantity)
          have ha' := stepSide_length_le ap ask aqRest atl
            (min bid.remainingQuantity ask.remainingQuantity)
          simp only [flattenOrders_cons, List.length_append, List.length_cons] at hfuel hone hb' ha' ⊢
          omega

/-! ## Removal and lookup, continued -/

theorem removeId_orders_sublist (ls : List Level) (p : Int) (id : Nat) :
    List.Sublist (flattenOrders (removeId ls p id)) (flattenOrders ls) := by
  induction ls with
  | nil => simp [removeId]
  | cons hd tlist ih =>
    obtain ⟨q, os⟩ := hd
    rw [removeId_eq]
    by_cases h1 : q = p
    · simp only [h1, reduceIte]
      by_cases h2 : removeFirstId os id = []
      · simp only [h2, reduceIte, flattenOrders_cons]
        exact List.sublist_append_right _ _
      · simp only [h2, reduceIte, flattenOrders_cons]
        exact List.Sublist.append (removeFirstId_sublist os id) (List.Sublist.refl _)
    · simp only [h1, reduceIte, flattenOrders_cons]
      exact List.Sublist.append (List.Sublist.refl _) ih

/-- Strictly ordered keys are distinct (either side). -/
theorem sortedKeys_nodup (ls : List Level) (r : Int → Int → Prop)
    (hirr : ∀ a b, r a b → a ≠ b)
    (h : ls.Pairwise (fun a b => r a.1 b.1)) : (ls.map Prod.fst).Nodup := by
  have h' : ls.Pairwise (fun a b => a.1 ≠ b.1) :=
    h.imp (fun hab => hirr _ _ hab)
  exact List.pairwise_map.mpr h'

theorem removeId_not_mem (ls : List Level) (p : Int) (id : Nat)
    (hN : (flattenIds ls).Nodup)
    (hkeys : (ls.map Prod.fst).Nodup)
    (hcoh : ∀ l ∈ ls, ∀ o' ∈ l.2, o'.price = l.1)
    (o : Order) (ho : o ∈ flattenOrders ls) (hid : o.orderId = id) (hp : o.price = p) :
    id ∉ flattenIds (removeId ls p id) := by
  induction ls with
  | nil => simp at ho
  | cons hd tlist ih =>
    obtain ⟨q, os⟩ := hd
    simp only [flattenIds_cons] at hN
    rcases List.nodup_append.mp hN with ⟨hN1, hN2, hdisj⟩
    simp only [List.map_cons, List.nodup_cons] at hkeys
    rw [removeId_eq]
    by_cases h1 : q = p
    · have hoos : o ∈ os := by
        rcases List.mem_append.mp (by simpa using ho) with h' | h'
        · exact h'
        · exfalso
          rcases flattenOrders_mem_level tlist o h' with ⟨l', hl', ho'⟩
          have hkey : o.price = l'.1 := hcoh l' (List.mem_cons_of_mem _ hl') o ho'
          have : l'.1 = q := by rw [← hkey, hp, h1]
          exact hkeys.1 (by
            rw [← this]
            exact List.mem_map.mpr ⟨l', hl', rfl⟩)
      have hidos : id ∈ os.map (fun o => o.orderId) :=
        List.mem_map.mpr ⟨o, hoos, hid⟩
      have hidtl : id ∉ flattenIds tlist := hdisj hidos
      simp only [h1, reduceIte]
      by_cases h2 : removeFirstId os id = []
      · simp only [h2, reduceIte]
        exact hidtl
      · simp only [h2, reduceIte, flattenIds_cons]
        intro hc
        rcases List.mem_append.mp hc with h' | h'
        · exact removeFirstId_not_mem os id hN1 h'
        · exact hidtl h'
    · have hotl : o ∈ flattenOrders tlist := by
        rcases List.mem_append.mp (by simpa using ho) with h' | h'
        · exfalso
          have := hcoh (q, os) (List.mem_cons_self _ _) o h'
          rw [hp] at this
          exact h1 this.symm
        · exact h'
      have hidtl : id ∈ flattenIds tlist := by
        unfold flattenIds
        exact List.mem_map.mpr ⟨o, hotl, hid⟩
      have hidos : id ∉ os.map (fun o => o.orderId) := fun hc => hdisj hc hidtl
      simp only [h1, reduceIte, flattenIds_cons]
      intro hc
      rcases List.mem_append.mp hc with h' | h'
      · exact hidos h'
      · exact ih hN2 hkeys.2 (fun l hl => hcoh l (List.mem_cons_of_mem _ hl)) hotl h'

/-! ## Preservation through the public operations -/

namespace Book

theorem CancelOrder_eq_none (b : Book) (id : Nat) (h : b.findOrder id = none) :
    b.CancelOrder id = b := by
  unfold Book.CancelOrder
  rw [h]

theorem CancelOrder_eq (b : Book) (id : Nat) (o : Order)
    (h : b.findOrder id = some o) :
    b.CancelOrder id =
      if o.side = Side.Sell then { b with asks := removeId b.asks o.price id }
      else { b with bids := removeId b.bids o.price id } := by
  unfold Book.CancelOrder
  rw [h]

theorem CancelOrder_WF (b : Book) (id : Nat) (h : b.WF) : (b.CancelOrder id).WF := by
  cases hf : b.findOrder id with
  | none => rw [CancelOrder_eq_none b id hf]; exact h
  | some o =>
    rw [CancelOrder_eq b id o hf]
    by_cases hs : o.side = Side.Sell
    · rw [if_pos hs]
      refine ⟨h.bidsSorted, removeId_pairwise _ _ _ (fun a b => a < b) h.asksSorted, h.bidsNE,
        removeId_NE _ _ _ h.asksNE, h.bidsCoh, removeId_coherent _ _ _ _ h.asksCoh, ?_⟩
      have hsub := removeId_ids_sublist b.asks o.price id
      have hN := h.idsNodup
      rw [Book.ids_eq] at hN ⊢
      exact List.Nodup.sublist (List.Sublist.append (List.Sublist.refl _) hsub) hN
    · rw [if_neg hs]
      refine ⟨removeId_pairwise _ _ _ (fun a b => b < a) h.bidsSorted, h.asksSorted,
        removeId_NE _ _ _ h.bidsNE, h.asksNE, removeId_coherent _ _ _ _ h.bidsCoh,
        h.asksCoh, ?_⟩
      have hsub := removeId_ids_sublist b.bids o.price id
      have hN := h.idsNodup
      rw [Book.ids_eq] at hN ⊢
      exact List.Nodup.sublist (List.Sublist.append hsub (List.Sublist.refl _)) hN

theorem CancelOrder_allKeysLt (b : Book) (id : Nat) (h : b.allKeysLt) :
    (b.CancelOrder id).allKeysLt := by
  cases hf : b.findOrder id with
  | none => rw [CancelOrder_eq_none b id hf]; exact h
  | some o =>
    rw [CancelOrder_eq b id o hf]
    by_cases hs : o.side = Side.Sell
    · rw [if_pos hs]
      intro lb hlb la hla
      rcases removeId_keys b.asks o.price id la hla with ⟨la', hla', he⟩
      rw [he]
      exact h lb hlb la' hla'
    · rw [if_neg hs]
      intro lb hlb la hla
      rcases removeId_keys b.bids o.price id lb hlb with ⟨lb', hlb', he⟩
      rw [he]
      exact h lb' hlb' la hla

theorem CancelOrder_subset (b : Book) (id : Nat) :
    ∀ x ∈ (b.CancelOrder id).allOrders, x ∈ b.allOrders := by
  cases hf : b.findOrder id with
  | none => rw [CancelOrder_eq_none b id hf]; exact fun x hx => hx
  | some o =>
    rw [CancelOrder_eq b id o hf]
    by_cases hs : o.side = Side.Sell
    · rw [if_pos hs]
      intro x hx
      unfold Book.allOrders at hx ⊢
      rcases List.mem_append.mp hx with h' | h'
      · exact List.mem_append.mpr (Or.inl h')
      · exact List.mem_append.mpr
          (Or.inr ((removeId_orders_sublist b.asks o.price id).mem h'))
    · rw [if_neg hs]
      intro x hx
      unfold Book.allOrders at hx ⊢
      rcases List.mem_append.mp hx with h' | h'
      · exact List.mem_append.mpr
          (Or.inl ((removeId_orders_sublist b.bids o.price id).mem h'))
      · exact List.mem_append.mpr (Or.inr h')

theorem sweepTopFAKBids_cases (b : Book) :
    sweepTopFAKBids b = b ∨ ∃ id, sweepTopFAKBids b = b.CancelOrder id := by
  unfold sweepTopFAKBids
  split
  · split_ifs with h
    · exact Or.inr ⟨_, rfl⟩
    · exact Or.inl rfl
  · exact Or.inl rfl

theorem sweepTopFAKAsks_cases (b : Book) :
    sweepTopFAKAsks b = b ∨ ∃ id, sweepTopFAKAsks b = b.CancelOrder id := by
  unfold sweepTopFAKAsks
  split
  · split_ifs with h
    · exact Or.inr ⟨_, rfl⟩
    · exact Or.inl rfl
  · exact Or.inl rfl

theorem sweepBids_pres (P : Book → Prop)
    (hP : ∀ b id, P b → P (b.CancelOrder id)) (b : Book) (h : P b) :
    P (sweepTopFAKBids b) := by
  rcases sweepTopFAKBids_cases b with he | ⟨id, he⟩ <;> rw [he]
  · exact h
  · exact hP b id h

theorem sweepAsks_pres (P : Book → Prop)
    (hP : ∀ b id, P b → P (b.CancelOrder id)) (b : Book) (h : P b) :
    P (sweepTopFAKAsks b) := by
  rcases sweepTopFAKAsks_cases b with he | ⟨id, he⟩ <;> rw [he]
  · exact h
  · exact hP b id h

theorem MatchOrders_fst (b : Book) :
    (b.MatchOrders).1 = (matchLoop (b.orderCount + 1) b.bids b.asks).1 := rfl

theorem MatchOrders_snd (b : Book) :
    (b.MatchOrders).2 = sweepTopFAKAsks (sweepTopFAKBids
      ⟨(matchLoop (b.orderCount + 1) b.bids b.asks).2.1,
       (matchLoop (b.orderCount + 1) b.bids b.asks).2.2⟩) := rfl

theorem MatchOrders_mid_WF (b : Book) (h : b.WF) :
    (Book.mk (matchLoop (b.orderCount + 1) b.bids b.asks).2.1
       (matchLoop (b.orderCount + 1) b.bids b.asks).2.2).WF := by
  have hpw := matchLoop_pairwise (b.orderCount + 1) b.bids b.asks
    (fun a b => b < a) (fun a b => a < b) h.bidsSorted h.asksSorted
  have hNE := matchLoop_NE (b.orderCount + 1) b.bids b.asks h.bidsNE h.asksNE
  have hcoh := matchLoop_coherent (b.orderCount + 1) b.bids b.asks h.bidsCoh h.asksCoh
  have hids := matchLoop_ids_sublist (b.orderCount + 1) b.bids b.asks
  refine ⟨hpw.1, hpw.2, hNE.1, hNE.2, hcoh.1, hcoh.2, ?_⟩
  have hN := h.idsNodup
  rw [Book.ids_eq] at hN ⊢
  exact List.Nodup.sublist (List.Sublist.append hids.1 hids.2) hN

theorem MatchOrders_WF (b : Book) (h : b.WF) : (b.MatchOrders).2.WF := by
  rw [MatchOrders_snd]
  exact sweepAsks_pres _ CancelOrder_WF _
    (sweepBids_pres _ CancelOrder_WF _ (MatchOrders_mid_WF b h))

theorem MatchOrders_uncrossed (b : Book) (h : b.WF) : (b.MatchOrders).2.Uncrossed := by
  rw [MatchOrders_snd]
  have hmidU : (Book.mk (matchLoop (b.orderCount + 1) b.bids b.asks).2.1
      (matchLoop (b.orderCount + 1) b.bids b.asks).2.2).Uncrossed := by
    apply matchLoop_uncrossed _ _ _ h.bidsNE h.asksNE
    have : b.orderCount = (flattenOrders b.bids).length + (flattenOrders b.asks).length := by
      unfold Book.orderCount Book.allOrders
      simp
    omega
  have hmidWF := MatchOrders_mid_WF b h
  have hmidK : (Book.mk (matchLoop (b.orderCount + 1) b.bids b.asks).2.1
      (matchLoop (b.orderCount + 1) b.bids b.asks).2.2).allKeysLt :=
    Book.uncrossed_allKeysLt _ hmidWF.bidsSorted hmidWF.asksSorted hmidU
  apply Book.allKeysLt_uncrossed
  exact sweepAsks_pres _ CancelOrder_allKeysLt _
    (sweepBids_pres _ CancelOrder_allKeysLt _ hmidK)

theorem insertOrder_ids_perm (b : Book) (o : Order) :
    List.Perm (b.insertOrder o).ids (o.orderId :: b.ids) := by
  unfold Book.insertOrder
  by_cases hs : o.side = Side.Buy
  · rw [if_pos hs]
    simp only [Book.ids_eq]
    refine List.Perm.trans (List.Perm.append_right _ (addAtLevel_ids_perm _ _ _ _)) ?_
    refine List.Perm.trans
      (List.Perm.append_right _ (List.perm_append_singleton _ _)) ?_
    simp
  · rw [if_neg hs]
    simp only [Book.ids_eq]
    refine List.Perm.trans (List.Perm.append_left _ (addAtLevel_ids_perm _ _ _ _)) ?_
    rw [← List.append_assoc]
    exact List.perm_append_singleton _ _

theorem insertOrder_WF (b : Book) (o : Order) (h : b.WF)
    (hfresh : o.orderId ∉ b.ids) : (b.insertOrder o).WF := by
  have hN : (b.insertOrder o).ids.Nodup :=
    ((insertOrder_ids_perm b o).nodup_iff).mpr (List.nodup_cons.mpr ⟨hfresh, h.idsNodup⟩)
  unfold Book.insertOrder at hN ⊢
  by_cases hs : o.side = Side.Buy
  · rw [if_pos hs] at hN ⊢
    refine ⟨?_, h.asksSorted, addAtLevel_NE _ _ _ _ h.bidsNE, h.asksNE,
      ?_, h.asksCoh, hN⟩
    · refine addAtLevel_pairwise _ _ _ (fun a b => b < a)
        (fun a b c h1 h2 => h2.trans h1) ?_ ?_ _ h.bidsSorted
      · intro a b hab
        simpa using hab
      · intro a b hab hne
        have : ¬ (b < a) := by simpa using hab
        omega
    · exact addAtLevel_coherent _ _ Side.Buy _ h.bidsCoh hs
  · rw [if_neg hs] at hN ⊢
    refine ⟨h.bidsSorted, ?_, h.bidsNE, addAtLevel_NE _ _ _ _ h.asksNE,
      h.bidsCoh, ?_, hN⟩
    · refine addAtLevel_pairwise _ _ _ (fun a b => a < b)
        (fun a b c h1 h2 => h1.trans h2) ?_ ?_ _ h.asksSorted
      · intro a b hab
        simpa using hab
      · intro a b hab hne
        have : ¬ (a < b) := by simpa using hab
        omega
    · have hside : o.side = Side.Sell := by
        cases hso : o.side
        · exact absurd hso hs
        · rfl
      exact addAtLevel_coherent _ _ Side.Sell _ h.asksCoh hside

theorem insertOrder_orders_mem (b : Book) (o : Order) (x : Order)
    (hx : x ∈ (b.insertOrder o).allOrders) : x = o ∨ x ∈ b.allOrders := by
  unfold Book.insertOrder at hx
  by_cases hs : o.side = Side.Buy
  · rw [if_pos hs] at hx
    unfold Book.allOrders at hx
    rcases List.mem_append.mp hx with h' | h'
    · rcases addAtLevel_orders_mem _ _ _ _ _ h' with h'' | h''
      · exact Or.inl h''
      · exact Or.inr (List.mem_append.mpr (Or.inl h''))
    · exact Or.inr (List.mem_append.mpr (Or.inr h'))
  · rw [if_neg hs] at hx
    unfold Book.allOrders at hx
    rcases List.mem_append.mp hx with h' | h'
    · exact Or.inr (List.mem_append.mpr (Or.inl h'))
    · rcases addAtLevel_orders_mem _ _ _ _ _ h' with h'' | h''
      · exact Or.inl h''
      · exact Or.inr (List.mem_append.mpr (Or.inr h''))

theorem addAndMatch_WF (b : Book) (o : Order) (h : b.WF)
    (hfresh : o.orderId ∉ b.ids) : (b.addAndMatch o).2.WF :=
  MatchOrders_WF _ (insertOrder_WF b o h hfresh)

theorem addAndMatch_uncrossed (b : Book) (o : Order) (h : b.WF)
    (hfresh : o.orderId ∉ b.ids) : (b.addAndMatch o).2.Uncrossed :=
  MatchOrders_uncrossed _ (insertOrder_WF b o h hfresh)

/-! ### Characterizations of `AddOrder`'s branches -/

theorem AddOrder_eq_dup (b : Book) (o : Order)
    (h : b.contains o.orderId = true) : b.AddOrder o = ([], b) := by
  unfold Book.AddOrder
  rw [if_pos h]

theorem AddOrder_eq_market_none (b : Book) (o : Order)
    (hc : b.contains o.orderId = false) (hM : o.orderType = OrderType.Market)
    (hw : b.worstOppositePrice o.side o.initialQuantity = none) :
    b.AddOrder o = ([], b) := by
  unfold Book.AddOrder
  rw [if_neg (by simp [hc]), if_pos hM, hw]

theorem AddOrder_eq_market_some (b : Book) (o : Order)
    (hc : b.contains o.orderId = false) (hM : o.orderType = OrderType.Market)
    (wp : Int) (hw : b.worstOppositePrice o.side o.initialQuantity = some wp) :
    b.AddOrder o =
      b.addAndMatch { o with price := wp, orderType := OrderType.GoodTillCancel } := by
  unfold Book.AddOrder
  rw [if_neg (by simp [hc]), if_pos hM, hw]
  have hok : o.ToGoodTillCancel wp =
      Except.ok { o with price := wp, orderType := OrderType.GoodTillCancel } := by
    simp [Order.ToGoodTillCancel, hM]
  show (match o.ToGoodTillCancel wp with
    | Except.ok o' => b.addAndMatch o'
    | Except.error _ => ([], b)) = _
  rw [hok]

theorem AddOrder_eq_rejectFAK (b : Book) (o : Order)
    (hc : b.contains o.orderId = false) (hT : o.orderType = OrderType.FillAndKill)
    (hcm : b.CanMatch o.side o.price = false) : b.AddOrder o = ([], b) := by
  unfold Book.AddOrder
  rw [if_neg (by simp [hc]), if_neg (by simp [hT]), if_pos ⟨hT, by simp [hcm]⟩]

theorem AddOrder_eq_rejectFOK (b : Book) (o : Order)
    (hc : b.contains o.orderId = false) (hT : o.orderType = OrderType.FillOrKill)
    (hcf : b.CanFullyFill o.side o.price o.initialQuantity = false) :
    b.AddOrder o = ([], b) := by
  unfold Book.AddOrder
  rw [if_neg (by simp [hc]), if_neg (by simp [hT]),
    if_neg (by rintro ⟨h1, _⟩; rw [hT] at h1; simp at h1),
    if_pos ⟨hT, by simp [hcf]⟩]

theorem AddOrder_eq_accept (b : Book) (o : Order)
    (hc : b.contains o.orderId = false) (hM : o.orderType ≠ OrderType.Market)
    (hFAK : o.orderType = OrderType.FillAndKill → b.CanMatch o.side o.price = true)
    (hFOK : o.orderType = OrderType.FillOrKill →
      b.CanFullyFill o.side o.price o.initialQuantity = true) :
    b.AddOrder o = b.addAndMatch o := by
  unfold Book.AddOrder
  rw [if_neg (by simp [hc]), if_neg hM,
    if_neg (by rintro ⟨h1, h2⟩; exact h2 (by simp [hFAK h1])),
    if_neg (by rintro ⟨h1, h2⟩; exact h2 (by simp [hFOK h1]))]

theorem AddOrder_WF (b : Book) (o : Order) (h : b.WF) : (b.AddOrder o).2.WF := by
  by_cases hc : b.contains o.orderId = true
  · rw [AddOrder_eq_dup b o hc]; exact h
  · have hc' : b.contains o.orderId = false := by
      cases hcb : b.contains o.orderId
      · rfl
      · exact absurd hcb hc
    have hfresh : o.orderId ∉ b.ids := (contains_false_iff b o.orderId).mp hc'
    by_cases hM : o.orderType = OrderType.Market
    · cases hw : b.worstOppositePrice o.side o.initialQuantity with
      | none => rw [AddOrder_eq_market_none b o hc' hM hw]; exact h
      | some wp =>
        rw [AddOrder_eq_market_some b o hc' hM wp hw]
        exact addAndMatch_WF _ _ h hfresh
    · by_cases hFAK : o.orderType = OrderType.FillAndKill ∧
        b.CanMatch o.side o.price = false
      · rw [AddOrder_eq_rejectFAK b o hc' hFAK.1 hFAK.2]; exact h
      · by_cases hFOK : o.orderType = OrderType.FillOrKill ∧
          b.CanFullyFill o.side o.price o.initialQuantity = false
        · rw [AddOrder_eq_rejectFOK b o hc' hFOK.1 hFOK.2]; exact h
        · rw [AddOrder_eq_accept b o hc' hM ?_ ?_]
          · exact addAndMatch_WF _ _ h hfresh
          · intro hT
            cases hcm : b.CanMatch o.side o.price
            · exact absurd ⟨hT, hcm⟩ hFAK
            · rfl
          · intro hT
            cases hcf : b.CanFullyFill o.side o.price o.initialQuantity
            · exact absurd ⟨hT, hcf⟩ hFOK
            · rfl

theorem AddOrder_uncrossed (b : Book) (o : Order) (h : b.WF) (hU : b.Uncrossed) :
    (b.AddOrder o).2.Uncrossed := by
  by_cases hc : b.contains o.orderId = true
  · rw [AddOrder_eq_dup b o hc]; exact hU
  · have hc' : b.contains o.orderId = false := by
      cases hcb : b.contains o.orderId
      · rfl
      · exact absurd hcb hc
    have hfresh : o.orderId ∉ b.ids := (contains_false_iff b o.orderId).mp hc'
    by_cases hM : o.orderType = OrderType.Market
    · cases hw : b.worstOppositePrice o.side o.initialQuantity with
      | none => rw [AddOrder_eq_market_none b o hc' hM hw]; exact hU
      | some wp =>
        rw [AddOrder_eq_market_some b o hc' hM wp hw]
        exact addAndMatch_uncrossed _ _ h hfresh
    · by_cases hFAK : o.orderType = OrderType.FillAndKill ∧
        b.CanMatch o.side o.price = false
      · rw [AddOrder_eq_rejectFAK b o hc' hFAK.1 hFAK.2]; exact hU
      · by_cases hFOK : o.orderType = OrderType.FillOrKill ∧
          b.CanFullyFill o.side o.price o.initialQuantity = false
        · rw [AddOrder_eq_rejectFOK b o hc' hFOK.1 hFOK.2]; exact hU
        · rw [AddOrder_eq_accept b o hc' hM ?_ ?_]
          · exact addAndMatch_uncrossed _ _ h hfresh
          · intro hT
            cases hcm : b.CanMatch o.side o.price
            · exact absurd ⟨hT, hcm⟩ hFAK
            · rfl
          · intro hT
            cases hcf : b.CanFullyFill o.side o.price o.initialQuantity
            · exact absurd ⟨hT, hcf⟩ hFOK
            · rfl

theorem CancelOrder_uncrossed (b : Book) (id : Nat) (h : b.WF) (hU : b.Uncrossed) :
    (b.CancelOrder id).Uncrossed :=
  Book.allKeysLt_uncrossed _ (CancelOrder_allKeysLt b id
    (Book.uncrossed_allKeysLt b h.bidsSorted h.asksSorted hU))

theorem ModifyOrder_WF (b : Book) (m : OrderModify) (h : b.WF) :
    (b.ModifyOrder m).2.WF := by
  unfold Book.ModifyOrder
  cases hf : b.findOrder m.orderId with
  | none => exact h
  | some o => exact AddOrder_WF _ _ (CancelOrder_WF b m.orderId h)

theorem ModifyOrder_uncrossed (b : Book) (m : OrderModify) (h : b.WF)
    (hU : b.Uncrossed) : (b.ModifyOrder m).2.Uncrossed := by
  unfold Book.ModifyOrder
  cases hf : b.findOrder m.orderId with
  | none => exact hU
  | some o =>
    exact AddOrder_uncrossed _ _ (CancelOrder_WF b m.orderId h)
      (CancelOrder_uncrossed b m.orderId h hU)

/-- In a well-formed book an order rests on the side its `side` field names. -/
theorem mem_side (b : Book) (o : Order) (h : b.WF) (hm : o ∈ b.allOrders) :
    (o.side = Side.Buy → o ∈ flattenOrders b.bids) ∧
    (o.side = Side.Sell → o ∈ flattenOrders b.asks) := by
  rcases List.mem_append.mp hm with h' | h'
  · refine ⟨fun _ => h', fun hs => ?_⟩
    exfalso
    rcases flattenOrders_mem_level b.bids o h' with ⟨l, hl, ho⟩
    have := (h.bidsCoh l hl o ho).2
    rw [hs] at this
    exact Side.noConfusion this
  · refine ⟨fun hs => ?_, fun _ => h'⟩
    exfalso
    rcases flattenOrders_mem_level b.asks o h' with ⟨l, hl, ho⟩
    have := (h.asksCoh l hl o ho).2
    rw [hs] at this
    exact Side.noConfusion this

/-- After a successful cancellation the id is gone from the book. -/
theorem cancel_contains_false (b : Book) (id : Nat) (h : b.WF) (o : Order)
    (hf : b.findOrder id = some o) : (b.CancelOrder id).findOrder id = none := by
  obtain ⟨hmem, hid⟩ := Book.findOrder_some b id o hf
  have hN := h.idsNodup
  rw [Book.ids_eq] at hN
  rcases List.nodup_append.mp hN with ⟨hN1, hN2, hdisj⟩
  rw [CancelOrder_eq b id o hf]
  by_cases hs : o.side = Side.Sell
  · rw [if_pos hs]
    have hoasks : o ∈ flattenOrders b.asks := (mem_side b o h hmem).2 hs
    have hidasks : id ∈ flattenIds b.asks := by
      unfold flattenIds
      exact List.mem_map.mpr ⟨o, hoasks, hid⟩
    apply (Book.findOrder_eq_none_iff _ id).mpr
    rw [Book.ids_eq]
    intro hc
    rcases List.mem_append.mp hc with h' | h'
    · exact hdisj h' hidasks
    · exact removeId_not_mem b.asks o.price id hN2
        (sortedKeys_nodup b.asks (fun a b => a < b) (fun a b hab => ne_of_lt hab)
          h.asksSorted)
        (fun l hl o' ho' => (h.asksCoh l hl o' ho').1) o hoasks hid rfl h'
  · rw [if_neg hs]
    have hside : o.side = Side.Buy := by
      cases hso : o.side
      · rfl
      · exact absurd hso hs
    have hobids : o ∈ flattenOrders b.bids := (mem_side b o h hmem).1 hside
    have hidbids : id ∈ flattenIds b.bids := by
      unfold flattenIds
      exact List.mem_map.mpr ⟨o, hobids, hid⟩
    apply (Book.findOrder_eq_none_iff _ id).mpr
    rw [Book.ids_eq]
    intro hc
    rcases List.mem_append.mp hc with h' | h'
    · exact removeId_not_mem b.bids o.price id hN1
        (sortedKeys_nodup b.bids (fun a b => b < a) (fun a b hab => (ne_of_lt hab).symm)
          h.bidsSorted)
        (fun l hl o' ho' => (h.bidsCoh l hl o' ho').1) o hobids hid rfl h'
    · exact hdisj hidbids h'

end Book

/-! ## Fixtures used by the witnesses (spec §8 scenario D book) -/

/-- Resting ask `Sell GTC id=10 price=100 qty=5`. -/
def askOrder10 : Order := ⟨OrderType.GoodTillCancel, 10, Side.Sell, 100, 5, 5⟩

/-- Resting ask `Sell GTC id=11 price=101 qty=5`. -/
def askOrder11 : Order := ⟨OrderType.GoodTillCancel, 11, Side.Sell, 101, 5, 5⟩

/-- The book of spec §8 scenario D: asks 100×5 (id 10) and 101×5 (id 11). -/
def bookD : Book := ⟨[], [(100, [askOrder10]), (101, [askOrder11])]⟩

/-! ## Claims -/

/-- Claim C9: `Order::Fill(q)` raises an error with a diagnostic identifying
the offending OrderId exactly when `q` exceeds the remaining quantity;
otherwise it reduces the remaining quantity by exactly `q` and changes
nothing else about the order. -/
theorem claim_C9_fill (o : Order) (q : Nat) :
    (o.remainingQuantity < q →
      o.Fill q = Except.error ("Order (" ++ toString o.orderId ++
        ") cannot be filled for more than its remaining quantity.")) ∧
    (q ≤ o.remainingQuantity →
      o.Fill q = Except.ok { o with remainingQuantity := o.remainingQuantity - q }) := by
  constructor
  · intro h
    simp [Order.Fill, h]
  · intro h
    exact Order.Fill_eq_ok o q h

/-- Witness for C9 at a concrete order: overfill errors, normal fill
subtracts. -/
theorem claim_C9_fill_witness :
    ((⟨OrderType.GoodTillCancel, 42, Side.Buy, 100, 5, 5⟩ : Order).Fill 7 =
      Except.error ("Order (" ++ toString (42 : Nat) ++
        ") cannot be filled for more than its remaining quantity.")) ∧
    ((⟨OrderType.GoodTillCancel, 42, Side.Buy, 100, 5, 5⟩ : Order).Fill 3 =
      Except.ok ⟨OrderType.GoodTillCancel, 42, Side.Buy, 100, 5, 2⟩) :=
  ⟨(claim_C9_fill _ 7).1 (by decide), (claim_C9_fill _ 3).2 (by decide)⟩

/-- Claim C5: ModifyOrder of a present id behaves exactly as CancelOrder
followed by AddOrder of a fresh order carrying the modification's side,
price and quantity and the cancelled order's original type; for an absent
id it is a no-op returning no trades. -/
theorem claim_C5_modify (b : Book) (m : OrderModify) :
    (b.findOrder m.orderId = none → b.ModifyOrder m = ([], b)) ∧
    (∀ o : Order, b.findOrder m.orderId = some o →
      b.ModifyOrder m = (b.CancelOrder m.orderId).AddOrder
        (Order.mk o.orderType m.orderId m.side m.price m.quantity m.quantity)) := by
  constructor
  · intro h
    unfold Book.ModifyOrder
    rw [h]
  · intro o h
    unfold Book.ModifyOrder
    rw [h]
    rfl

/-- Witness for C5 on the scenario-D book: modifying resting order 10 equals
cancel-then-add with its preserved type; modifying an unknown id is a
no-op. -/
theorem claim_C5_modify_witness :
    (bookD.ModifyOrder ⟨10, 99, Side.Sell, 2⟩ =
      (bookD.CancelOrder 10).AddOrder
        (Order.mk OrderType.GoodTillCancel 10 Side.Sell 99 2 2)) ∧
    (bookD.ModifyOrder ⟨77, 99, Side.Sell, 2⟩ = ([], bookD)) :=
  ⟨(claim_C5_modify bookD _).2 askOrder10 (by decide),
   (claim_C5_modify bookD _).1 (by decide)⟩

/-- Claim C4: a Market order is rejected with no side effects when the
opposite side cannot fully fill it; otherwise it is repriced to the worst
reachable opposite price (the last price reached by the quantity walk),
converted to GoodTillCancel by `Order::ToGoodTillCancel`, and admitted as a
normal order; `ToGoodTillCancel` itself faults on any non-Market order. -/
theorem claim_C4_market (b : Book) (o : Order)
    (hM : o.orderType = OrderType.Market) (hc : b.contains o.orderId = false) :
    (b.worstOppositePrice o.side o.initialQuantity = none → b.AddOrder o = ([], b)) ∧
    (∀ wp : Int, b.worstOppositePrice o.side o.initialQuantity = some wp →
      o.ToGoodTillCancel wp = Except.ok
        { o with price := wp, orderType := OrderType.GoodTillCancel } ∧
      b.AddOrder o = b.addAndMatch
        { o with price := wp, orderType := OrderType.GoodTillCancel }) ∧
    (∀ (o' : Order) (p : Int), o'.orderType ≠ OrderType.Market →
      o'.ToGoodTillCancel p = Except.error ("Order (" ++ toString o'.orderId ++
        ") cannot have its price adjusted, only market orders can.")) := by
  refine ⟨?_, ?_, ?_⟩
  · intro hw
    exact Book.AddOrder_eq_market_none b o hc hM hw
  · intro wp hw
    exact ⟨by simp [Order.ToGoodTillCancel, hM],
           Book.AddOrder_eq_market_some b o hc hM wp hw⟩
  · intro o' p hne
    simp [Order.ToGoodTillCancel, hne]

/-- Witness for C4: on the scenario-D book a Market buy of 7 reprices to the
boundary 101 and proceeds as a normal admission; on an empty book a Market
buy is rejected; converting a GoodTillCancel order faults. -/
theorem claim_C4_market_witness :
    (bookD.AddOrder ⟨OrderType.Market, 50, Side.Buy, 0, 7, 7⟩ =
      bookD.addAndMatch ⟨OrderType.GoodTillCancel, 50, Side.Buy, 101, 7, 7⟩) ∧
    (Book.empty.AddOrder ⟨OrderType.Market, 51, Side.Buy, 0, 7, 7⟩ = ([], Book.empty)) ∧
    ((⟨OrderType.GoodTillCancel, 52, Side.Buy, 100, 5, 5⟩ : Order).ToGoodTillCancel 99 =
      Except.error ("Order (" ++ toString (52 : Nat) ++
        ") cannot have its price adjusted, only market orders can.")) := by
  refine ⟨?_, ?_, ?_⟩
  · exact ((claim_C4_market bookD ⟨OrderType.Market, 50, Side.Buy, 0, 7, 7⟩ rfl
      (by decide)).2.1 101 (by decide)).2
  · exact (claim_C4_market Book.empty ⟨OrderType.Market, 51, Side.Buy, 0, 7, 7⟩ rfl
      (by decide)).1 (by decide)
  · exact (claim_C4_market bookD ⟨OrderType.Market, 50, Side.Buy, 0, 7, 7⟩ rfl
      (by decide)).2.2 ⟨OrderType.GoodTillCancel, 52, Side.Buy, 100, 5, 5⟩ 99
      (by decide)

/-- Claim C6: cancelling an absent id is a no-op (not an error), and
cancelling the same id twice leaves the book exactly as cancelling it
once. -/
theorem claim_C6_cancel (b : Book) (id : Nat) (h : b.WF) :
    (b.contains id = false → b.CancelOrder id = b) ∧
    (b.CancelOrder id).CancelOrder id = b.CancelOrder id := by
  constructor
  · intro hc
    have : b.findOrder id = none := by
      unfold Book.contains at hc
      cases hfo : b.findOrder id
      · rfl
      · rw [hfo] at hc
        simp at hc
    exact Book.CancelOrder_eq_none b id this
  · cases hf : b.findOrder id with
    | none =>
      rw [Book.CancelOrder_eq_none b id hf, Book.CancelOrder_eq_none b id hf]
    | some o =>
      exact Book.CancelOrder_eq_none _ id (Book.cancel_contains_false b id h o hf)

/-- Witness for C6 on the scenario-D book: cancelling the unknown id 77 is a
no-op and cancelling id 10 twice equals cancelling it once. -/
theorem claim_C6_cancel_witness :
    (bookD.CancelOrder 77 = bookD) ∧
    ((bookD.CancelOrder 10).CancelOrder 10 = bookD.CancelOrder 10) :=
  ⟨(claim_C6_cancel bookD 77 (by decide)).1 (by decide),
   (claim_C6_cancel bookD 10 (by decide)).2⟩

/-- Claim C7: after AddOrder, CancelOrder and ModifyOrder return, a
well-formed uncrossed book stays uncrossed: whenever both sides are
non-empty the highest bid price is strictly below the lowest ask price. -/
theorem claim_C7_uncrossed (b : Book) (o : Order) (id : Nat) (m : OrderModify)
    (h : b.WF) (hU : b.Uncrossed) :
    (b.AddOrder o).2.Uncrossed ∧ (b.CancelOrder id).Uncrossed ∧
    (b.ModifyOrder m).2.Uncrossed :=
  ⟨Book.AddOrder_uncrossed b o h hU, Book.CancelOrder_uncrossed b id h hU,
   Book.ModifyOrder_uncrossed b m h hU⟩

/-- Witness for C7 on the scenario-D book with a crossing buy, a cancel and
a modify. -/
theorem claim_C7_uncrossed_witness :
    (bookD.AddOrder ⟨OrderType.GoodTillCancel, 20, Side.Buy, 101, 8, 8⟩).2.Uncrossed ∧
    (bookD.CancelOrder 10).Uncrossed ∧
    (bookD.ModifyOrder ⟨11, 99, Side.Sell, 2⟩).2.Uncrossed :=
  claim_C7_uncrossed bookD ⟨OrderType.GoodTillCancel, 20, Side.Buy, 101, 8, 8⟩ 10
    ⟨11, 99, Side.Sell, 2⟩ (by decide) (by decide)

/-! ## Remaining-quantity bounds (claim C8) -/

namespace Book

theorem CancelOrder_remBounded (b : Book) (id : Nat) (h : b.RemBounded) :
    (b.CancelOrder id).RemBounded :=
  fun x hx => h x (CancelOrder_subset b id x hx)

theorem MatchOrders_remBounded (b : Book) (hb : b.RemBounded) :
    (b.MatchOrders).2.RemBounded := by
  rw [MatchOrders_snd]
  have hbB : ∀ x ∈ flattenOrders b.bids, 0 < x.remainingQuantity :=
    fun x hx => (hb x (List.mem_append.mpr (Or.inl hx))).1
  have hbA : ∀ x ∈ flattenOrders b.asks, 0 < x.remainingQuantity :=
    fun x hx => (hb x (List.mem_append.mpr (Or.inr hx))).1
  have hpos := matchLoop_pos (b.orderCount + 1) b.bids b.asks hbB hbA
  have hsh := matchLoop_shadow (b.orderCount + 1) b.bids b.asks
  have hmid : (Book.mk (matchLoop (b.orderCount + 1) b.bids b.asks).2.1
      (matchLoop (b.orderCount + 1) b.bids b.asks).2.2).RemBounded := by
    intro x hx
    rcases List.mem_append.mp hx with h' | h'
    · refine ⟨hpos.1 x h', ?_⟩
      obtain ⟨y, hy, hs⟩ := hsh.1 x h'
      have hby := hb y (List.mem_append.mpr (Or.inl hy))
      obtain ⟨_, _, _, _, hinit, hrem⟩ := hs
      rw [hinit]
      exact hrem.trans hby.2
    · refine ⟨hpos.2 x h', ?_⟩
      obtain ⟨y, hy, hs⟩ := hsh.2 x h'
      have hby := hb y (List.mem_append.mpr (Or.inr hy))
      obtain ⟨_, _, _, _, hinit, hrem⟩ := hs
      rw [hinit]
      exact hrem.trans hby.2
  exact sweepAsks_pres _ CancelOrder_remBounded _
    (sweepBids_pres _ CancelOrder_remBounded _ hmid)

theorem insertOrder_remBounded (b : Book) (o : Order) (h : b.RemBounded)
    (ho : 0 < o.remainingQuantity ∧ o.remainingQuantity ≤ o.initialQuantity) :
    (b.insertOrder o).RemBounded := by
  intro x hx
  rcases insertOrder_orders_mem b o x hx with he | hm
  · rw [he]; exact ho
  · exact h x hm

theorem AddOrder_remBounded (b : Book) (o : Order) (hb : b.RemBounded)
    (ho : 0 < o.remainingQuantity ∧ o.remainingQuantity ≤ o.initialQuantity) :
    (b.AddOrder o).2.RemBounded := by
  by_cases hc : b.contains o.orderId = true
  · rw [AddOrder_eq_dup b o hc]; exact hb
  · have hc' : b.contains o.orderId = false := by
      cases hcb : b.contains o.orderId
      · rfl
      · exact absurd hcb hc
    by_cases hM : o.orderType = OrderType.Market
    · cases hw : b.worstOppositePrice o.side o.initialQuantity with
      | none => rw [AddOrder_eq_market_none b o hc' hM hw]; exact hb
      | some wp =>
        rw [AddOrder_eq_market_some b o hc' hM wp hw]
        exact MatchOrders_remBounded _ (insertOrder_remBounded b _ hb ho)
    · by_cases hFAK : o.orderType = OrderType.FillAndKill ∧
        b.CanMatch o.side o.price = false
      · rw [AddOrder_eq_rejectFAK b o hc' hFAK.1 hFAK.2]; exact hb
      · by_cases hFOK : o.orderType = OrderType.FillOrKill ∧
          b.CanFullyFill o.side o.price o.initialQuantity = false
        · rw [AddOrder_eq_rejectFOK b o hc' hFOK.1 hFOK.2]; exact hb
        · rw [AddOrder_eq_accept b o hc' hM ?_ ?_]
          · exact MatchOrders_remBounded _ (insertOrder_remBounded b o hb ho)
          · intro hT
            cases hcm : b.CanMatch o.side o.price
            · exact absurd ⟨hT, hcm⟩ hFAK
            · rfl
          · intro hT
            cases hcf : b.CanFullyFill o.side o.price o.initialQuantity
            · exact absurd ⟨hT, hcf⟩ hFOK
            · rfl

theorem ModifyOrder_remBounded (b : Book) (m : OrderModify) (hb : b.RemBounded)
    (hq : 0 < m.quantity) : (b.ModifyOrder m).2.RemBounded := by
  unfold Book.ModifyOrder
  cases hf : b.findOrder m.orderId with
  | none => exact hb
  | some o =>
    exact AddOrder_remBounded _ _ (CancelOrder_remBounded b m.orderId hb)
      ⟨hq, le_refl _⟩

end Book

/-- The zero-quantity GoodTillCancel order that refutes C8 as stated. -/
def zeroQtyOrder : Order := ⟨OrderType.GoodTillCancel, 1, Side.Buy, 100, 0, 0⟩

/-- Counterexample to claim C8 as stated: adding a GoodTillCancel order of
quantity 0 to the empty book leaves it resting with
`remaining_quantity = 0`, violating `0 < remaining`.  The code performs no
quantity validation, so the invariant fails without a positivity
precondition on inputs. -/
theorem claim_C8_counterexample :
    (Book.empty.AddOrder zeroQtyOrder).2.allOrders = [zeroQtyOrder] ∧
    zeroQtyOrder.remainingQuantity = 0 ∧
    ¬ (Book.empty.AddOrder zeroQtyOrder).2.RemBounded := by
  refine ⟨by decide, rfl, ?_⟩
  intro hR
  have := hR zeroQtyOrder (by decide)
  simp [zeroQtyOrder] at this

/-- Claim C8 (amended): after every public operation on a book whose resting
orders satisfy `0 < remaining ≤ initial`, and whose submitted quantities are
positive (with `remaining ≤ initial` on the added order), every resting
order still satisfies `0 < remaining_quantity ≤ initial_quantity`. -/
theorem claim_C8_remBounded (b : Book) (o : Order) (id : Nat) (m : OrderModify)
    (hb : b.RemBounded)
    (ho : 0 < o.remainingQuantity ∧ o.remainingQuantity ≤ o.initialQuantity)
    (hq : 0 < m.quantity) :
    (b.AddOrder o).2.RemBounded ∧ (b.CancelOrder id).RemBounded ∧
    (b.ModifyOrder m).2.RemBounded :=
  ⟨Book.AddOrder_remBounded b o hb ho, Book.CancelOrder_remBounded b id hb,
   Book.ModifyOrder_remBounded b m hb hq⟩

/-- Witness for the amended C8 on the scenario-D book. -/
theorem claim_C8_remBounded_witness :
    (bookD.AddOrder ⟨OrderType.GoodTillCancel, 20, Side.Buy, 101, 8, 8⟩).2.RemBounded ∧
    (bookD.CancelOrder 10).RemBounded ∧
    (bookD.ModifyOrder ⟨11, 99, Side.Sell, 2⟩).2.RemBounded :=
  claim_C8_remBounded bookD ⟨OrderType.GoodTillCancel, 20, Side.Buy, 101, 8, 8⟩ 10
    ⟨11, 99, Side.Sell, 2⟩ (by decide) (by decide) (by decide)

/-! ## Per-trade price bound (claim C10) -/

/-- Every trade emitted by the matching loop has a bid-leg price at least its
ask-leg price: the legs record their own orders' prices, which equal the
level keys, and a pair is matched only under `bidPrice ≥ askPrice`. -/
theorem matchLoop_trades_price (fuel : Nat) (bids asks : List Level)
    (hb : coherent Side.Buy bids) (ha : coherent Side.Sell asks) :
    ∀ t ∈ (matchLoop fuel bids asks).1, t.askTrade.price ≤ t.bidTrade.price := by
  refine matchLoop_elim
    (motive := fun bids asks out =>
      coherent Side.Buy bids → coherent Side.Sell asks →
      ∀ t ∈ out.1, t.askTrade.price ≤ t.bidTrade.price)
    (fun bids asks _ _ t ht => absurd ht (List.not_mem_nil t)) ?_ fuel bids asks hb ha
  intro fuel bp bid bqRest btl ap ask aqRest atl hlt ih hb ha t ht
  rcases List.mem_cons.mp ht with he | hm
  · subst he
    have hbid : bid.price = bp :=
      (hb _ (List.mem_cons_self _ _) bid (List.mem_cons_self _ _)).1
    have hask : ask.price = ap :=
      (ha _ (List.mem_cons_self _ _) ask (List.mem_cons_self _ _)).1
    show ask.price ≤ bid.price
    rw [hbid, hask]
    exact le_of_not_lt hlt
  · exact ih (stepSide_coherent _ _ _ _ _ _ hb) (stepSide_coherent _ _ _ _ _ _ ha) t hm

namespace Book

theorem insertOrder_coherent (b : Book) (o : Order)
    (hb : coherent Side.Buy b.bids) (ha : coherent Side.Sell b.asks) :
    coherent Side.Buy (b.insertOrder o).bids ∧
    coherent Side.Sell (b.insertOrder o).asks := by
  unfold Book.insertOrder
  by_cases hs : o.side = Side.Buy
  · rw [if_pos hs]
    exact ⟨addAtLevel_coherent _ _ _ _ hb hs, ha⟩
  · rw [if_neg hs]
    have hside : o.side = Side.Sell := by
      cases hso : o.side
      · exact absurd hso hs
      · rfl
    exact ⟨hb, addAtLevel_coherent _ _ _ _ ha hside⟩

theorem addAndMatch_trades_price (b : Book) (o : Order)
    (hb : coherent Side.Buy b.bids) (ha : coherent Side.Sell b.asks) :
    ∀ t ∈ (b.addAndMatch o).1, t.askTrade.price ≤ t.bidTrade.price := by
  unfold Book.addAndMatch
  rw [MatchOrders_fst]
  have hcoh := insertOrder_coherent b o hb ha
  exact matchLoop_trades_price _ _ _ hcoh.1 hcoh.2

theorem AddOrder_trades_price (b : Book) (o : Order)
    (hb : coherent Side.Buy b.bids) (ha : coherent Side.Sell b.asks) :
    ∀ t ∈ (b.AddOrder o).1, t.askTrade.price ≤ t.bidTrade.price := by
  by_cases hc : b.contains o.orderId = true
  · rw [AddOrder_eq_dup b o hc]
    exact fun t ht => absurd ht (List.not_mem_nil t)
  · have hc' : b.contains o.orderId = false := by
      cases hcb : b.contains o.orderId
      · rfl
      · exact absurd hcb hc
    by_cases hM : o.orderType = OrderType.Market
    · cases hw : b.worstOppositePrice o.side o.initialQuantity with
      | none =>
        rw [AddOrder_eq_market_none b o hc' hM hw]
        exact fun t ht => absurd ht (List.not_mem_nil t)
      | some wp =>
        rw [AddOrder_eq_market_some b o hc' hM wp hw]
        exact addAndMatch_trades_price b _ hb ha
    · by_cases hFAK : o.orderType = OrderType.FillAndKill ∧
        b.CanMatch o.side o.price = false
      · rw [AddOrder_eq_rejectFAK b o hc' hFAK.1 hFAK.2]
        exact fun t ht => absurd ht (List.not_mem_nil t)
      · by_cases hFOK : o.orderType = OrderType.FillOrKill ∧
          b.CanFullyFill o.side o.price o.initialQuantity = false
        · rw [AddOrder_eq_rejectFOK b o hc' hFOK.1 hFOK.2]
          exact fun t ht => absurd ht (List.not_mem_nil t)
        · rw [AddOrder_eq_accept b o hc' hM ?_ ?_]
          · exact addAndMatch_trades_price b o hb ha
          · intro hT
            cases hcm : b.CanMatch o.side o.price
            · exact absurd ⟨hT, hcm⟩ hFAK
            · rfl
          · intro hT
            cases hcf : b.CanFullyFill o.side o.price o.initialQuantity
            · exact absurd ⟨hT, hcf⟩ hFOK
            · rfl

theorem CancelOrder_coherent (b : Book) (id : Nat)
    (hb : coherent Side.Buy b.bids) (ha : coherent Side.Sell b.asks) :
    coherent Side.Buy (b.CancelOrder id).bids ∧
    coherent Side.Sell (b.CancelOrder id).asks := by
  cases hf : b.findOrder id with
  | none => rw [CancelOrder_eq_none b id hf]; exact ⟨hb, ha⟩
  | some o =>
    rw [CancelOrder_eq b id o hf]
    by_cases hs : o.side = Side.Sell
    · rw [if_pos hs]
      exact ⟨hb, removeId_coherent _ _ _ _ ha⟩
    · rw [if_neg hs]
      exact ⟨removeId_coherent _ _ _ _ hb, ha⟩

theorem ModifyOrder_trades_price (b : Book) (m : OrderModify)
    (hb : coherent Side.Buy b.bids) (ha : coherent Side.Sell b.asks) :
    ∀ t ∈ (b.ModifyOrder m).1, t.askTrade.price ≤ t.bidTrade.price := by
  unfold Book.ModifyOrder
  cases hf : b.findOrder m.orderId with
  | none => exact fun t ht => absurd ht (List.not_mem_nil t)
  | some o =>
    have hcoh := CancelOrder_coherent b m.orderId hb ha
    exact AddOrder_trades_price _ _ hcoh.1 hcoh.2

end Book

/-- Claim C10: every trade emitted by AddOrder or ModifyOrder has a bid-leg
price at least its ask-leg price, because a pair is matched only while the
best bid price is at least the best ask price and each leg records its own
order's price (which equals its level key in a coherent book). -/
theorem claim_C10_trade_prices (b : Book) (o : Order) (m : OrderModify)
    (hb : coherent Side.Buy b.bids) (ha : coherent Side.Sell b.asks) :
    (∀ t ∈ (b.AddOrder o).1, t.askTrade.price ≤ t.bidTrade.price) ∧
    (∀ t ∈ (b.ModifyOrder m).1, t.askTrade.price ≤ t.bidTrade.price) :=
  ⟨Book.AddOrder_trades_price b o hb ha, Book.ModifyOrder_trades_price b m hb ha⟩

/-! ## Tracking the newly admitted top-of-book order (claim C3)

A FillAndKill order is admitted only when it crosses, so it is inserted as
the sole order of a strictly best price level.  The matching loop touches
only that level on its side until the order is fully consumed; afterwards,
either the order is gone and everything else descends from the pre-existing
levels, or it still rests alone at the top, where the post-match sweep
cancels it. -/

theorem matchLoop_topBid (fuel : Nat) (bids asks : List Level) :
    ∀ (p : Int) (o : Order) (btl : List Level), bids = (p, [o]) :: btl →
      (∃ o', shadows o' o ∧ (matchLoop fuel bids asks).2.1 = (p, [o']) :: btl) ∨
      (∀ x ∈ flattenOrders (matchLoop fuel bids asks).2.1,
        ∃ y ∈ flattenOrders btl, shadows x y) := by
  refine matchLoop_elim
    (motive := fun bids asks out => ∀ p o btl, bids = (p, [o]) :: btl →
      (∃ o', shadows o' o ∧ out.2.1 = (p, [o']) :: btl) ∨
      (∀ x ∈ flattenOrders out.2.1, ∃ y ∈ flattenOrders btl, shadows x y))
    ?_ ?_ fuel bids asks
  · intro bids asks p o btl he
    exact Or.inl ⟨o, shadows_refl o, he⟩
  · intro fuel bp bid bqRest btl₀ ap ask aqRest atl hlt ih p o btl he
    injection he with h1 h2
    injection h1 with hbp hq
    injection hq with hbid hrest
    subst hbp
    subst hbid
    subst hrest
    subst h2
    by_cases hf :
        bid.remainingQuantity - min bid.remainingQuantity ask.remainingQuantity = 0
    · right
      have hstep : stepSide bp bid [] btl₀
          (min bid.remainingQuantity ask.remainingQuantity) = btl₀ := by
        rw [stepSide_eq]
        simp [hf]
      intro x hx
      rw [hstep] at hx
      exact (matchLoop_shadow fuel btl₀
        (stepSide ap ask aqRest atl
          (min bid.remainingQuantity ask.remainingQuantity))).1 x hx
    · have hstep : stepSide bp bid [] btl₀
          (min bid.remainingQuantity ask.remainingQuantity) =
          (bp, [{ bid with remainingQuantity :=
            bid.remainingQuantity - min bid.remainingQuantity ask.remainingQuantity }]) ::
            btl₀ := by
        rw [stepSide_eq]
        simp [hf]
      rcases ih bp { bid with remainingQuantity :=
          bid.remainingQuantity - min bid.remainingQuantity ask.remainingQuantity }
          btl₀ hstep with ⟨o', hsh, heq⟩ | hB
      · exact Or.inl ⟨o', shadows_trans hsh
          ⟨rfl, rfl, rfl, rfl, rfl, Nat.sub_le _ _⟩, heq⟩
      · exact Or.inr hB

theorem matchLoop_topAsk (fuel : Nat) (bids asks : List Level) :
    ∀ (p : Int) (o : Order) (atl : List Level), asks = (p, [o]) :: atl →
      (∃ o', shadows o' o ∧ (matchLoop fuel bids asks).2.2 = (p, [o']) :: atl) ∨
      (∀ x ∈ flattenOrders (matchLoop fuel bids asks).2.2,
        ∃ y ∈ flattenOrders atl, shadows x y) := by
  refine matchLoop_elim
    (motive := fun bids asks out => ∀ p o atl, asks = (p, [o]) :: atl →
      (∃ o', shadows o' o ∧ out.2.2 = (p, [o']) :: atl) ∨
      (∀ x ∈ flattenOrders out.2.2, ∃ y ∈ flattenOrders atl, shadows x y))
    ?_ ?_ fuel bids asks
  · intro bids asks p o atl he
    exact Or.inl ⟨o, shadows_refl o, he⟩
  · intro fuel bp bid bqRest btl ap ask aqRest atl₀ hlt ih p o atl he
    injection he with h1 h2
    injection h1 with hap hq
    injection hq with hask hrest
    subst hap
    subst hask
    subst hrest
    subst h2
    by_cases hf :
        ask.remainingQuantity - min bid.remainingQuantity ask.remainingQuantity = 0
    · right
      have hstep : stepSide ap ask [] atl₀
          (min bid.remainingQuantity ask.remainingQuantity) = atl₀ := by
        rw [stepSide_eq]
        simp [hf]
      intro x hx
      rw [hstep] at hx
      exact (matchLoop_shadow fuel
        (stepSide bp bid bqRest btl
          (min bid.remainingQuantity ask.remainingQuantity)) atl₀).2 x hx
    · have hstep : stepSide ap ask [] atl₀
          (min bid.remainingQuantity ask.remainingQuantity) =
          (ap, [{ ask with remainingQuantity :=
            ask.remainingQuantity - min bid.remainingQuantity ask.remainingQuantity }]) ::
            atl₀ := by
        rw [stepSide_eq]
        simp [hf]
      rcases ih ap { ask with remainingQuantity :=
          ask.remainingQuantity - min bid.remainingQuantity ask.remainingQuantity }
          atl₀ hstep with ⟨o', hsh, heq⟩ | hB
      · exact Or.inl ⟨o', shadows_trans hsh
          ⟨rfl, rfl, rfl, rfl, rfl, Nat.sub_le _ _⟩, heq⟩
      · exact Or.inr hB

/-- A strictly best price is inserted as a fresh singleton level at the
front of its side. -/
theorem addAtLevel_front (before : Int → Int → Bool) (ls : List Level)
    (p : Int) (o : Order) (h : ∀ l ∈ ls, before p l.1 = true ∧ p ≠ l.1) :
    addAtLevel before ls p o = (p, [o]) :: ls := by
  cases ls with
  | nil => rfl
  | cons hd tlist =>
    obtain ⟨q, os⟩ := hd
    have hh := h (q, os) (List.mem_cons_self _ _)
    rw [addAtLevel_eq, if_neg hh.2, if_pos hh.1]

theorem Book.sweepTopFAKBids_fire (b : Book) (p : Int) (o' : Order)
    (tl : List Level) (hb : b.bids = (p, [o']) :: tl)
    (hT : o'.orderType = OrderType.FillAndKill) :
    sweepTopFAKBids b = b.CancelOrder o'.orderId := by
  unfold sweepTopFAKBids
  rw [hb]
  show (if o'.orderType = OrderType.FillAndKill
    then b.CancelOrder o'.orderId else b) = b.CancelOrder o'.orderId
  rw [if_pos hT]

theorem Book.sweepTopFAKAsks_fire (b : Book) (p : Int) (o' : Order)
    (tl : List Level) (ha : b.asks = (p, [o']) :: tl)
    (hT : o'.orderType = OrderType.FillAndKill) :
    sweepTopFAKAsks b = b.CancelOrder o'.orderId := by
  unfold sweepTopFAKAsks
  rw [ha]
  show (if o'.orderType = OrderType.FillAndKill
    then b.CancelOrder o'.orderId else b) = b.CancelOrder o'.orderId
  rw [if_pos hT]

/-- The bid-side sweep does nothing when no resting bid is FillAndKill. -/
theorem Book.sweepTopFAKBids_skip (b : Book)
    (h : ∀ x ∈ flattenOrders b.bids, x.orderType ≠ OrderType.FillAndKill) :
    sweepTopFAKBids b = b := by
  unfold sweepTopFAKBids
  split
  · next o rest tlist heq =>
    rw [if_neg]
    apply h
    rw [heq]
    simp
  · rfl

/-- Cancelling the sole order of the front bid level removes that level. -/
theorem Book.cancel_top_bid (b : Book) (p : Int) (o' : Order) (tl : List Level)
    (hb : b.bids = (p, [o']) :: tl) (hp : o'.price = p)
    (hside : o'.side = Side.Buy) :
    b.CancelOrder o'.orderId = ⟨tl, b.asks⟩ := by
  have hfind : b.findOrder o'.orderId = some o' := by
    unfold Book.findOrder Book.allOrders
    rw [hb]
    have : flattenOrders ((p, [o']) :: tl) ++ flattenOrders b.asks =
        o' :: (flattenOrders tl ++ flattenOrders b.asks) := by simp
    rw [this]
    exact List.find?_cons_of_pos _ (by simp)
  rw [Book.CancelOrder_eq b o'.orderId o' hfind, if_neg (by simp [hside])]
  have hrem : removeId b.bids o'.price o'.orderId = tl := by
    rw [hb, hp, removeId_eq]
    simp [removeFirstId]
  rw [hrem]

/-- Cancelling the sole order of the front ask level removes that level
(provided no bid has the same id, so the by-id lookup finds the ask). -/
theorem Book.cancel_top_ask (b : Book) (p : Int) (o' : Order) (tl : List Level)
    (ha : b.asks = (p, [o']) :: tl) (hp : o'.price = p)
    (hside : o'.side = Side.Sell)
    (hnb : o'.orderId ∉ flattenIds b.bids) :
    b.CancelOrder o'.orderId = ⟨b.bids, tl⟩ := by
  have hfind : b.findOrder o'.orderId = some o' := by
    unfold Book.findOrder Book.allOrders
    rw [ha]
    have h1 : (flattenOrders b.bids).find? (fun x => x.orderId == o'.orderId) = none := by
      apply List.find?_eq_none.mpr
      intro x hx hbeq
      apply hnb
      unfold flattenIds
      exact List.mem_map.mpr ⟨x, hx, by simpa using hbeq⟩
    rw [List.find?_append, h1]
    have : flattenOrders ((p, [o']) :: tl) = o' :: flattenOrders tl := by simp
    rw [this]
    simp [List.find?_cons_of_pos]
  rw [Book.CancelOrder_eq b o'.orderId o' hfind, if_pos hside]
  have hrem : removeId b.asks o'.price o'.orderId = tl := by
    rw [ha, hp, removeId_eq]
    simp [removeFirstId]
  rw [hrem]

/-! ## No FillAndKill order ever rests (claim C3) -/

theorem shadow_noFAK (ls ls' : List Level)
    (hsh : ∀ x ∈ flattenOrders ls', ∃ y ∈ flattenOrders ls, shadows x y)
    (h : ∀ y ∈ flattenOrders ls, y.orderType ≠ OrderType.FillAndKill) :
    ∀ x ∈ flattenOrders ls', x.orderType ≠ OrderType.FillAndKill := by
  intro x hx
  obtain ⟨y, hy, hs⟩ := hsh x hx
  rw [hs.1]
  exact h y hy

namespace Book

theorem noFAK_bids (b : Book) (h : b.NoRestingFAK) :
    ∀ x ∈ flattenOrders b.bids, x.orderType ≠ OrderType.FillAndKill :=
  fun x hx => h x (List.mem_append.mpr (Or.inl hx))

theorem noFAK_asks (b : Book) (h : b.NoRestingFAK) :
    ∀ x ∈ flattenOrders b.asks, x.orderType ≠ OrderType.FillAndKill :=
  fun x hx => h x (List.mem_append.mpr (Or.inr hx))

theorem noFAK_parts (bids asks : List Level)
    (hb : ∀ x ∈ flattenOrders bids, x.orderType ≠ OrderType.FillAndKill)
    (ha : ∀ x ∈ flattenOrders asks, x.orderType ≠ OrderType.FillAndKill) :
    (Book.mk bids asks).NoRestingFAK := by
  intro x hx
  rcases List.mem_append.mp hx with h | h
  · exact hb x h
  · exact ha x h

theorem CancelOrder_noFAK (b : Book) (id : Nat) (h : b.NoRestingFAK) :
    (b.CancelOrder id).NoRestingFAK :=
  fun x hx => h x (CancelOrder_subset b id x hx)

theorem MatchOrders_snd2 (L A : List Level) :
    ((Book.mk L A).MatchOrders).2 = sweepTopFAKAsks (sweepTopFAKBids
      ⟨(matchLoop ((Book.mk L A).orderCount + 1) L A).2.1,
       (matchLoop ((Book.mk L A).orderCount + 1) L A).2.2⟩) := rfl

theorem MatchOrders_noFAK (b : Book) (h : b.NoRestingFAK) :
    (b.MatchOrders).2.NoRestingFAK := by
  rw [MatchOrders_snd]
  have hsh := matchLoop_shadow (b.orderCount + 1) b.bids b.asks
  have hmid : (Book.mk (matchLoop (b.orderCount + 1) b.bids b.asks).2.1
      (matchLoop (b.orderCount + 1) b.bids b.asks).2.2).NoRestingFAK :=
    noFAK_parts _ _ (shadow_noFAK _ _ hsh.1 (noFAK_bids b h))
      (shadow_noFAK _ _ hsh.2 (noFAK_asks b h))
  exact sweepAsks_pres _ CancelOrder_noFAK _
    (sweepBids_pres _ CancelOrder_noFAK _ hmid)

theorem insertOrder_noFAK (b : Book) (o : Order) (h : b.NoRestingFAK)
    (ho : o.orderType ≠ OrderType.FillAndKill) :
    (b.insertOrder o).NoRestingFAK := by
  intro x hx
  rcases insertOrder_orders_mem b o x hx with he | hm
  · rw [he]; exact ho
  · exact h x hm

theorem addAndMatch_noFAK (b : Book) (o : Order) (h : b.NoRestingFAK)
    (ho : o.orderType ≠ OrderType.FillAndKill) :
    (b.addAndMatch o).2.NoRestingFAK :=
  MatchOrders_noFAK _ (insertOrder_noFAK b o h ho)

theorem canMatch_buy (b : Book) (price : Int)
    (h : b.CanMatch Side.Buy price = true) :
    ∃ ahd atl, b.asks = ahd :: atl ∧ ahd.1 ≤ price := by
  unfold Book.CanMatch at h
  rcases ha : b.asks with _ | ⟨⟨ap, aq⟩, atl⟩
  · rw [ha] at h; simp at h
  · rw [ha] at h
    exact ⟨(ap, aq), atl, rfl, by simpa using h⟩

theorem canMatch_sell (b : Book) (price : Int)
    (h : b.CanMatch Side.Sell price = true) :
    ∃ bhd btl, b.bids = bhd :: btl ∧ price ≤ bhd.1 := by
  unfold Book.CanMatch at h
  rcases hb : b.bids with _ | ⟨⟨bp, bq⟩, btl⟩
  · rw [hb] at h; simp at h
  · rw [hb] at h
    exact ⟨(bp, bq), btl, rfl, by simpa using h⟩

theorem bidKeys_lt (b : Book) (price : Int) (h : b.WF) (hU : b.Uncrossed)
    (ahd : Level) (atl : List Level) (ha : b.asks = ahd :: atl)
    (hp : ahd.1 ≤ price) : ∀ l ∈ b.bids, l.1 < price := by
  intro l hl
  rcases hbq : b.bids with _ | ⟨bhd, btll⟩
  · rw [hbq] at hl; simp at hl
  · have h1 : l.1 ≤ bhd.1 :=
      sortedDesc_le_head bhd btll (hbq ▸ h.bidsSorted) l (hbq ▸ hl)
    have h2 : bhd.1 < ahd.1 := by
      unfold Book.Uncrossed at hU
      rw [hbq, ha] at hU
      exact hU
    omega

theorem askKeys_gt (b : Book) (price : Int) (h : b.WF) (hU : b.Uncrossed)
    (bhd : Level) (btl : List Level) (hb : b.bids = bhd :: btl)
    (hp : price ≤ bhd.1) : ∀ l ∈ b.asks, price < l.1 := by
  intro l hl
  rcases haq : b.asks with _ | ⟨ahd, atll⟩
  · rw [haq] at hl; simp at hl
  · have h1 : ahd.1 ≤ l.1 :=
      sortedAsc_head_le ahd atll (haq ▸ h.asksSorted) l (haq ▸ hl)
    have h2 : bhd.1 < ahd.1 := by
      unfold Book.Uncrossed at hU
      rw [hb, haq] at hU
      exact hU
    omega

theorem insertOrder_front_buy (b : Book) (o : Order) (hs : o.side = Side.Buy)
    (hkeys : ∀ l ∈ b.bids, l.1 < o.price) :
    b.insertOrder o = ⟨(o.price, [o]) :: b.bids, b.asks⟩ := by
  unfold Book.insertOrder
  rw [if_pos hs]
  have : addAtLevel (fun p q => q < p) b.bids o.price o =
      (o.price, [o]) :: b.bids :=
    addAtLevel_front _ _ _ _
      (fun l hl => ⟨by simpa using hkeys l hl, ne_of_gt (hkeys l hl)⟩)
  rw [this]

theorem insertOrder_front_sell (b : Book) (o : Order) (hs : o.side = Side.Sell)
    (hkeys : ∀ l ∈ b.asks, o.price < l.1) :
    b.insertOrder o = ⟨b.bids, (o.price, [o]) :: b.asks⟩ := by
  unfold Book.insertOrder
  rw [if_neg (by simp [hs])]
  have : addAtLevel (fun p q => p < q) b.asks o.price o =
      (o.price, [o]) :: b.asks :=
    addAtLevel_front _ _ _ _
      (fun l hl => ⟨by simpa using hkeys l hl, ne_of_lt (hkeys l hl)⟩)
  rw [this]

/-- A crossing FillAndKill buy never rests: it is swept if the matching loop
leaves any of it at the top of the bid side. -/
theorem addFAK_noFAK_buy (b : Book) (o : Order) (h : b.WF) (hU : b.Uncrossed)
    (hN : b.NoRestingFAK) (hT : o.orderType = OrderType.FillAndKill)
    (hs : o.side = Side.Buy) (hcm : b.CanMatch o.side o.price = true) :
    (b.addAndMatch o).2.NoRestingFAK := by
  obtain ⟨ahd, atl, ha, hple⟩ := canMatch_buy b o.price (hs ▸ hcm)
  have hkeys := bidKeys_lt b o.price h hU ahd atl ha hple
  unfold Book.addAndMatch
  rw [insertOrder_front_buy b o hs hkeys, MatchOrders_snd2]
  generalize ((Book.mk ((o.price, [o]) :: b.bids) b.asks).orderCount + 1) = fuel
  have hshA := (matchLoop_shadow fuel ((o.price, [o]) :: b.bids) b.asks).2
  have haskonly : ∀ x ∈ flattenOrders (matchLoop fuel ((o.price, [o]) :: b.bids)
      b.asks).2.2, x.orderType ≠ OrderType.FillAndKill :=
    shadow_noFAK _ _ hshA (noFAK_asks b hN)
  rcases matchLoop_topBid fuel ((o.price, [o]) :: b.bids) b.asks o.price o b.bids
      rfl with ⟨o', hsh, heq⟩ | hB
  · obtain ⟨hsT, hsI, hsS, hsP, _, _⟩ := hsh
    have hfire := Book.sweepTopFAKBids_fire
      (Book.mk (matchLoop fuel ((o.price, [o]) :: b.bids) b.asks).2.1
        (matchLoop fuel ((o.price, [o]) :: b.bids) b.asks).2.2)
      o.price o' b.bids heq (hsT.trans hT)
    have hcanc := Book.cancel_top_bid
      (Book.mk (matchLoop fuel ((o.price, [o]) :: b.bids) b.asks).2.1
        (matchLoop fuel ((o.price, [o]) :: b.bids) b.asks).2.2)
      o.price o' b.bids heq hsP (hsS.trans hs)
    rw [hfire, hcanc]
    exact sweepAsks_pres _ CancelOrder_noFAK _
      (noFAK_parts _ _ (noFAK_bids b hN) haskonly)
  · exact sweepAsks_pres _ CancelOrder_noFAK _
      (sweepBids_pres _ CancelOrder_noFAK _
        (noFAK_parts _ _ (shadow_noFAK _ _ hB (noFAK_bids b hN)) haskonly))

/-- A crossing FillAndKill sell never rests. -/
theorem addFAK_noFAK_sell (b : Book) (o : Order) (h : b.WF) (hU : b.Uncrossed)
    (hN : b.NoRestingFAK) (hT : o.orderType = OrderType.FillAndKill)
    (hs : o.side = Side.Sell) (hcm : b.CanMatch o.side o.price = true)
    (hfresh : o.orderId ∉ b.ids) :
    (b.addAndMatch o).2.NoRestingFAK := by
  obtain ⟨bhd, btl, hbq, hple⟩ := canMatch_sell b o.price (hs ▸ hcm)
  have hkeys := askKeys_gt b o.price h hU bhd btl hbq hple
  unfold Book.addAndMatch
  rw [insertOrder_front_sell b o hs hkeys, MatchOrders_snd2]
  have hNodup : (flattenIds b.bids ++
      flattenIds ((o.price, [o]) :: b.asks)).Nodup := by
    have := (insertOrder_ids_perm b o).nodup_iff.mpr
      (List.nodup_cons.mpr ⟨hfresh, h.idsNodup⟩)
    rw [insertOrder_front_sell b o hs hkeys, Book.ids_eq] at this
    exact this
  generalize ((Book.mk b.bids ((o.price, [o]) :: b.asks)).orderCount + 1) = fuel
  have hids := matchLoop_ids_sublist fuel b.bids ((o.price, [o]) :: b.asks)
  have hshB := (matchLoop_shadow fuel b.bids ((o.price, [o]) :: b.asks)).1
  have hbidsonly : ∀ x ∈ flattenOrders (matchLoop fuel b.bids
      ((o.price, [o]) :: b.asks)).2.1, x.orderType ≠ OrderType.FillAndKill :=
    shadow_noFAK _ _ hshB (noFAK_bids b hN)
  have hskip := Book.sweepTopFAKBids_skip
    (Book.mk (matchLoop fuel b.bids ((o.price, [o]) :: b.asks)).2.1
      (matchLoop fuel b.bids ((o.price, [o]) :: b.asks)).2.2) hbidsonly
  rw [hskip]
  rcases matchLoop_topAsk fuel b.bids ((o.price, [o]) :: b.asks) o.price o b.asks
      rfl with ⟨o', hsh, heq⟩ | hB
  · obtain ⟨hsT, hsI, hsS, hsP, _, _⟩ := hsh
    have hnb : o'.orderId ∉ flattenIds
        (matchLoop fuel b.bids ((o.price, [o]) :: b.asks)).2.1 := by
      intro hc
      have hc' : o'.orderId ∈ flattenIds b.bids := hids.1.mem hc
      rcases List.nodup_append.mp hNodup with ⟨_, _, hdisj⟩
      apply hdisj hc'
      rw [hsI]
      simp [flattenIds]
    have hfire := Book.sweepTopFAKAsks_fire
      (Book.mk (matchLoop fuel b.bids ((o.price, [o]) :: b.asks)).2.1
        (matchLoop fuel b.bids ((o.price, [o]) :: b.asks)).2.2)
      o.price o' b.asks heq (hsT.trans hT)
    have hcanc := Book.cancel_top_ask
      (Book.mk (matchLoop fuel b.bids ((o.price, [o]) :: b.asks)).2.1
        (matchLoop fuel b.bids ((o.price, [o]) :: b.asks)).2.2)
      o.price o' b.asks heq hsP (hsS.trans hs) hnb
    rw [hfire, hcanc]
    exact noFAK_parts _ _ hbidsonly (noFAK_asks b hN)
  · exact sweepAsks_pres _ CancelOrder_noFAK _
      (noFAK_parts _ _ hbidsonly (shadow_noFAK _ _ hB (noFAK_asks b hN)))

end Book

/-! ## Price-time priority of the emitted trades (claim C1)

`flattenIds` lists a (sorted) side's order ids in price-time priority order:
best price level first, FIFO order inside each level.  The matching loop
emits trades whose leg positions in that priority list never decrease, i.e.
trades come out best-price-first and oldest-first within a price. -/

theorem stepSide_flattenIds_cases (p : Int) (o : Order) (rest : List Order)
    (tl : List Level) (q : Nat) :
    flattenIds (stepSide p o rest tl q) = flattenIds ((p, o :: rest) :: tl) ∨
    o.orderId :: flattenIds (stepSide p o rest tl q) =
      flattenIds ((p, o :: rest) :: tl) := by
  rw [stepSide_eq]
  by_cases hf : o.remainingQuantity - q = 0
  · by_cases hr : rest = []
    · right
      simp [hf, hr]
    · right
      simp [hf, hr]
  · left
    simp [hf]

/-- Indices in the priority list only grow when the head is consumed. -/
theorem indexOf_mono_of_tail (x y : Nat) (hd : Nat) (R : List Nat)
    (hN : (hd :: R).Nodup) (hx : x ∈ R) (hy : y ∈ R)
    (hle : R.indexOf x ≤ R.indexOf y) :
    (hd :: R).indexOf x ≤ (hd :: R).indexOf y := by
  have hhd : hd ∉ R := (List.nodup_cons.mp hN).1
  have hxne : hd ≠ x := fun he => hhd (he ▸ hx)
  have hyne : hd ≠ y := fun he => hhd (he ▸ hy)
  rw [List.indexOf_cons_ne _ hxne, List.indexOf_cons_ne _ hyne]
  exact Nat.succ_le_succ hle

theorem matchLoop_priority (fuel : Nat) (bids asks : List Level)
    (hNb : (flattenIds bids).Nodup) (hNa : (flattenIds asks).Nodup) :
    ((matchLoop fuel bids asks).1.Pairwise (fun t1 t2 =>
      (flattenIds bids).indexOf t1.bidTrade.orderId ≤
        (flattenIds bids).indexOf t2.bidTrade.orderId ∧
      (flattenIds asks).indexOf t1.askTrade.orderId ≤
        (flattenIds asks).indexOf t2.askTrade.orderId)) ∧
    (∀ t ∈ (matchLoop fuel bids asks).1,
      t.bidTrade.orderId ∈ flattenIds bids ∧
      t.askTrade.orderId ∈ flattenIds asks) := by
  refine matchLoop_elim
    (motive := fun bids asks out =>
      (flattenIds bids).Nodup → (flattenIds asks).Nodup →
      (out.1.Pairwise (fun t1 t2 =>
        (flattenIds bids).indexOf t1.bidTrade.orderId ≤
          (flattenIds bids).indexOf t2.bidTrade.orderId ∧
        (flattenIds asks).indexOf t1.askTrade.orderId ≤
          (flattenIds asks).indexOf t2.askTrade.orderId)) ∧
      (∀ t ∈ out.1, t.bidTrade.orderId ∈ flattenIds bids ∧
        t.askTrade.orderId ∈ flattenIds asks))
    (fun bids asks _ _ => ⟨List.Pairwise.nil, fun t ht => absurd ht (List.not_mem_nil t)⟩)
    ?_ fuel bids asks hNb hNa
  intro fuel bp bid bqRest btl ap ask aqRest atl hlt ih hNb hNa
  have hsubB := stepSide_ids_sublist bp bid bqRest btl
    (min bid.remainingQuantity ask.remainingQuantity)
  have hsubA := stepSide_ids_sublist ap ask aqRest atl
    (min bid.remainingQuantity ask.remainingQuantity)
  obtain ⟨hpw, hmem⟩ := ih (List.Nodup.sublist hsubB hNb) (List.Nodup.sublist hsubA hNa)
  have hBfull : flattenIds ((bp, bid :: bqRest) :: btl) =
      bid.orderId :: (bqRest.map (fun o => o.orderId) ++ flattenIds btl) := by simp
  have hAfull : flattenIds ((ap, ask :: aqRest) :: atl) =
      ask.orderId :: (aqRest.map (fun o => o.orderId) ++ flattenIds atl) := by simp
  have htransB : ∀ x y : Nat,
      x ∈ flattenIds (stepSide bp bid bqRest btl
        (min bid.remainingQuantity ask.remainingQuantity)) →
      y ∈ flattenIds (stepSide bp bid bqRest btl
        (min bid.remainingQuantity ask.remainingQuantity)) →
      (flattenIds (stepSide bp bid bqRest btl
        (min bid.remainingQuantity ask.remainingQuantity))).indexOf x ≤
        (flattenIds (stepSide bp bid bqRest btl
          (min bid.remainingQuantity ask.remainingQuantity))).indexOf y →
      (flattenIds ((bp, bid :: bqRest) :: btl)).indexOf x ≤
        (flattenIds ((bp, bid :: bqRest) :: btl)).indexOf y := by
    intro x y hx hy hle
    rcases stepSide_flattenIds_cases bp bid bqRest btl
        (min bid.remainingQuantity ask.remainingQuantity) with he | he
    · rw [← he]
      exact hle
    · rw [← he]
      exact indexOf_mono_of_tail x y bid.orderId _ (he ▸ hNb) hx hy hle
  have htransA : ∀ x y : Nat,
      x ∈ flattenIds (stepSide ap ask aqRest atl
        (min bid.remainingQuantity ask.remainingQuantity)) →
      y ∈ flattenIds (stepSide ap ask aqRest atl
        (min bid.remainingQuantity ask.remainingQuantity)) →
      (flattenIds (stepSide ap ask aqRest atl
        (min bid.remainingQuantity ask.remainingQuantity))).indexOf x ≤
        (flattenIds (stepSide ap ask aqRest atl
          (min bid.remainingQuantity ask.remainingQuantity))).indexOf y →
      (flattenIds ((ap, ask :: aqRest) :: atl)).indexOf x ≤
        (flattenIds ((ap, ask :: aqRest) :: atl)).indexOf y := by
    intro x y hx hy hle
    rcases stepSide_flattenIds_cases ap ask aqRest atl
        (min bid.remainingQuantity ask.remainingQuantity) with he | he
    · rw [← he]
      exact hle
    · rw [← he]
      exact indexOf_mono_of_tail x y ask.orderId _ (he ▸ hNa) hx hy hle
  constructor
  · refine List.pairwise_cons.mpr ⟨?_, ?_⟩
    · intro t ht
      constructor
      · rw [hBfull]
        show (bid.orderId :: _).indexOf bid.orderId ≤ _
        rw [List.indexOf_cons_self]
        exact Nat.zero_le _
      · rw [hAfull]
        show (ask.orderId :: _).indexOf ask.orderId ≤ _
        rw [List.indexOf_cons_self]
        exact Nat.zero_le _
    · refine hpw.imp_of_mem ?_
      intro t1 t2 h1 h2 hle
      exact ⟨htransB _ _ (hmem t1 h1).1 (hmem t2 h2).1 hle.1,
             htransA _ _ (hmem t1 h1).2 (hmem t2 h2).2 hle.2⟩
  · intro t ht
    rcases List.mem_cons.mp ht with he | hm
    · subst he
      exact ⟨by simp, by simp⟩
    · exact ⟨hsubB.mem (hmem t hm).1, hsubA.mem (hmem t hm).2⟩

/-- Claim C1: the matching loop pairs the head of the best-bid queue with
the head of the best-ask queue while `best_bid ≥ best_ask`, trades
`min(bid.remaining, ask.remaining)` reducing both legs by that amount
(first conjunct: the loop's two defining equations), and the trades
returned by AddOrder come out in price-time priority order: the positions
of the legs in the priority-flattened sides (best price first, FIFO within
a price) are monotone over the emitted trade list (second conjunct for the
loop on any book with distinct ids; third conjunct for the trades of a
non-Market AddOrder, relative to the book as inserted). -/
theorem claim_C1_priority (b : Book) (o : Order) (h : b.WF)
    (hM : o.orderType ≠ OrderType.Market) :
    (∀ (fuel : Nat) (bp : Int) (bid : Order) (bqRest : List Order)
        (btl : List Level) (ap : Int) (ask : Order) (aqRest : List Order)
        (atl : List Level),
      (bp < ap →
        matchLoop (fuel + 1) ((bp, bid :: bqRest) :: btl) ((ap, ask :: aqRest) :: atl) =
          ([], (bp, bid :: bqRest) :: btl, (ap, ask :: aqRest) :: atl)) ∧
      (¬ bp < ap →
        matchLoop (fuel + 1) ((bp, bid :: bqRest) :: btl) ((ap, ask :: aqRest) :: atl) =
          (Trade.mk
              ⟨bid.orderId, bid.price, min bid.remainingQuantity ask.remainingQuantity⟩
              ⟨ask.orderId, ask.price, min bid.remainingQuantity ask.remainingQuantity⟩ ::
            (matchLoop fuel
              (stepSide bp bid bqRest btl (min bid.remainingQuantity ask.remainingQuantity))
              (stepSide ap ask aqRest atl (min bid.remainingQuantity ask.remainingQuantity))).1,
           (matchLoop fuel
              (stepSide bp bid bqRest btl (min bid.remainingQuantity ask.remainingQuantity))
              (stepSide ap ask aqRest atl (min bid.remainingQuantity ask.remainingQuantity))).2.1,
           (matchLoop fuel
              (stepSide bp bid bqRest btl (min bid.remainingQuantity ask.remainingQuantity))
              (stepSide ap ask aqRest atl (min bid.remainingQuantity ask.remainingQuantity))).2.2))) ∧
    (∀ (fuel : Nat) (bids asks : List Level),
      (flattenIds bids).Nodup → (flattenIds asks).Nodup →
      (matchLoop fuel bids asks).1.Pairwise (fun t1 t2 =>
        (flattenIds bids).indexOf t1.bidTrade.orderId ≤
          (flattenIds bids).indexOf t2.bidTrade.orderId ∧
        (flattenIds asks).indexOf t1.askTrade.orderId ≤
          (flattenIds asks).indexOf t2.askTrade.orderId)) ∧
    ((b.AddOrder o).1.Pairwise (fun t1 t2 =>
      (flattenIds (b.insertOrder o).bids).indexOf t1.bidTrade.orderId ≤
        (flattenIds (b.insertOrder o).bids).indexOf t2.bidTrade.orderId ∧
      (flattenIds (b.insertOrder o).asks).indexOf t1.askTrade.orderId ≤
        (flattenIds (b.insertOrder o).asks).indexOf t2.askTrade.orderId)) := by
  refine ⟨?_, ?_, ?_⟩
  · intro fuel bp bid bqRest btl ap ask aqRest atl
    constructor
    · intro hlt
      simp only [matchLoop, if_pos hlt]
    · intro hlt
      simp only [matchLoop, if_neg hlt]
  · intro fuel bids asks hNb hNa
    exact (matchLoop_priority fuel bids asks hNb hNa).1
  · by_cases hc : b.contains o.orderId = true
    · rw [Book.AddOrder_eq_dup b o hc]
      exact List.Pairwise.nil
    · have hc' : b.contains o.orderId = false := by
        cases hcb : b.contains o.orderId
        · rfl
        · exact absurd hcb hc
      have hfresh : o.orderId ∉ b.ids := (Book.contains_false_iff b o.orderId).mp hc'
      have hWFins := Book.insertOrder_WF b o h hfresh
      have hNins := hWFins.idsNodup
      rw [Book.ids_eq] at hNins
      rcases List.nodup_append.mp hNins with ⟨hNb, hNa, _⟩
      by_cases hFAK : o.orderType = OrderType.FillAndKill ∧
        b.CanMatch o.side o.price = false
      · rw [Book.AddOrder_eq_rejectFAK b o hc' hFAK.1 hFAK.2]
        exact List.Pairwise.nil
      · by_cases hFOK : o.orderType = OrderType.FillOrKill ∧
          b.CanFullyFill o.side o.price o.initialQuantity = false
        · rw [Book.AddOrder_eq_rejectFOK b o hc' hFOK.1 hFOK.2]
          exact List.Pairwise.nil
        · rw [Book.AddOrder_eq_accept b o hc' hM ?_ ?_]
          · show ((b.insertOrder o).MatchOrders).1.Pairwise _
            rw [Book.MatchOrders_fst]
            exact (matchLoop_priority _ _ _ hNb hNa).1
          · intro hT
            cases hcm : b.CanMatch o.side o.price
            · exact absurd ⟨hT, hcm⟩ hFAK
            · rfl
          · intro hT
            cases hcf : b.CanFullyFill o.side o.price o.initialQuantity
            · exact absurd ⟨hT, hcf⟩ hFOK
            · rfl

/-- Witness for C1: the stop equation at a non-crossing pair of levels, and
the priority ordering of the two trades of a crossing buy on the
scenario-D book. -/
theorem claim_C1_priority_witness :
    (matchLoop 1 [((99 : Int), [⟨OrderType.GoodTillCancel, 30, Side.Buy, 99, 5, 5⟩])]
        [((100 : Int), [askOrder10])] =
      ([], [((99 : Int), [⟨OrderType.GoodTillCancel, 30, Side.Buy, 99, 5, 5⟩])],
        [((100 : Int), [askOrder10])])) ∧
    ((bookD.AddOrder ⟨OrderType.GoodTillCancel, 20, Side.Buy, 101, 8, 8⟩).1.Pairwise
      (fun t1 t2 =>
        (flattenIds (bookD.insertOrder
          ⟨OrderType.GoodTillCancel, 20, Side.Buy, 101, 8, 8⟩).bids).indexOf
            t1.bidTrade.orderId ≤
          (flattenIds (bookD.insertOrder
            ⟨OrderType.GoodTillCancel, 20, Side.Buy, 101, 8, 8⟩).bids).indexOf
              t2.bidTrade.orderId ∧
        (flattenIds (bookD.insertOrder
          ⟨OrderType.GoodTillCancel, 20, Side.Buy, 101, 8, 8⟩).asks).indexOf
            t1.askTrade.orderId ≤
          (flattenIds (bookD.insertOrder
            ⟨OrderType.GoodTillCancel, 20, Side.Buy, 101, 8, 8⟩).asks).indexOf
              t2.askTrade.orderId)) :=
  ⟨((claim_C1_priority bookD ⟨OrderType.GoodTillCancel, 20, Side.Buy, 101, 8, 8⟩
      (by decide) (by decide)).1 0 99
      ⟨OrderType.GoodTillCancel, 30, Side.Buy, 99, 5, 5⟩ [] [] 100 askOrder10 [] []).1
      (by decide),
   (claim_C1_priority bookD ⟨OrderType.GoodTillCancel, 20, Side.Buy, 101, 8, 8⟩
      (by decide) (by decide)).2.2⟩

/-! ## FillOrKill admission (claim C2)

The quantity an incoming order can reach on the opposite side is the walk
of that side's levels in priority order, stopping at the first unreachable
price — exactly the walk `CanFullyFill` performs over the levels index. -/

/-- Total quantity traded by the given order id over a trade list (both
legs). -/
def tradedQty (ts : List Trade) (id : Nat) : Nat :=
  (ts.map (fun t =>
    (if t.bidTrade.orderId = id then t.bidTrade.quantity else 0) +
    (if t.askTrade.orderId = id then t.askTrade.quantity else 0))).sum

@[simp] theorem tradedQty_nil (id : Nat) : tradedQty [] id = 0 := rfl

@[simp] theorem tradedQty_cons (t : Trade) (ts : List Trade) (id : Nat) :
    tradedQty (t :: ts) id =
      ((if t.bidTrade.orderId = id then t.bidTrade.quantity else 0) +
       (if t.askTrade.orderId = id then t.askTrade.quantity else 0)) +
      tradedQty ts id := by
  simp [tradedQty]

theorem tradedQty_zero (ts : List Trade) (id : Nat)
    (h : ∀ t ∈ ts, t.bidTrade.orderId ≠ id ∧ t.askTrade.orderId ≠ id) :
    tradedQty ts id = 0 := by
  induction ts with
  | nil => rfl
  | cons t ts ih =>
    have ht := h t (List.mem_cons_self _ _)
    rw [tradedQty_cons, if_neg ht.1, if_neg ht.2,
      ih (fun t' ht' => h t' (List.mem_cons_of_mem _ ht'))]

/-- Every trade's legs name orders resting on the respective sides. -/
theorem matchLoop_trade_ids (fuel : Nat) (bids asks : List Level) :
    ∀ t ∈ (matchLoop fuel bids asks).1,
      t.bidTrade.orderId ∈ flattenIds bids ∧
      t.askTrade.orderId ∈ flattenIds asks := by
  refine matchLoop_elim
    (motive := fun bids asks out => ∀ t ∈ out.1,
      t.bidTrade.orderId ∈ flattenIds bids ∧ t.askTrade.orderId ∈ flattenIds asks)
    (fun bids asks t ht => absurd ht (List.not_mem_nil t)) ?_ fuel bids asks
  intro fuel bp bid bqRest btl ap ask aqRest atl hlt ih t ht
  rcases List.mem_cons.mp ht with he | hm
  · subst he
    exact ⟨by simp, by simp⟩
  · exact ⟨(stepSide_ids_sublist _ _ _ _ _).mem (ih t hm).1,
           (stepSide_ids_sublist _ _ _ _ _).mem (ih t hm).2⟩

/-- Priority-order walk of a side: sum `f` over the levels until the first
level whose key fails `reach`. -/
def reachWalk (reach : Int → Bool) (f : Level → Nat) : List Level → Nat
  | [] => 0
  | l :: rest => if reach l.1 then f l + reachWalk reach f rest else 0

/-- Reachable ask liquidity for a buy limited at `price`. -/
def askReachable (asks : List Level) (price : Int) : Nat :=
  reachWalk (fun k => decide (k ≤ price)) (fun l => qtySum l.2) asks

/-- Reachable bid liquidity for a sell limited at `price`. -/
def bidReachable (bids : List Level) (price : Int) : Nat :=
  reachWalk (fun k => decide (price ≤ k)) (fun l => qtySum l.2) bids

theorem reachWalk_cons (reach : Int → Bool) (f : Level → Nat) (l : Level)
    (rest : List Level) :
    reachWalk reach f (l :: rest) =
      if reach l.1 then f l + reachWalk reach f rest else 0 := rfl

theorem qtySum_cons (o : Order) (os : List Order) :
    qtySum (o :: os) = o.remainingQuantity + qtySum os := by
  simp [qtySum]

theorem reachWalk_congr (reach : Int → Bool) (f g : Level → Nat)
    (ls : List Level) (h : ∀ l ∈ ls, f l = g l) :
    reachWalk reach f ls = reachWalk reach g ls := by
  induction ls with
  | nil => rfl
  | cons l rest ih =>
    unfold reachWalk
    rw [h l (List.mem_cons_self _ _),
      ih (fun l' hl' => h l' (List.mem_cons_of_mem _ hl'))]

theorem canFullyFillLoop_le (lvlQty : Int → Nat) (reach : Int → Bool)
    (needed : Nat) :
    ∀ (ls : List Level) (acc : Nat),
      canFullyFillLoop lvlQty reach needed ls acc = true →
      needed ≤ acc + reachWalk reach (fun l => lvlQty l.1) ls := by
  intro ls
  induction ls with
  | nil =>
    intro acc h
    unfold canFullyFillLoop at h
    simp at h
    simpa [reachWalk] using h
  | cons l rest ih =>
    intro acc h
    obtain ⟨p, os⟩ := l
    unfold canFullyFillLoop at h
    unfold reachWalk
    dsimp only at h ⊢
    by_cases hr : reach p
    · rw [if_pos hr] at h ⊢
      by_cases hd : needed ≤ acc + lvlQty p
      · have := Nat.le_add_right (acc + lvlQty p)
          (reachWalk reach (fun l => lvlQty l.1) rest)
        omega
      · rw [if_neg hd] at h
        have := ih (acc + lvlQty p) h
        omega
    · rw [if_neg hr] at h ⊢
      simp at h
      omega

theorem qtySum_append (a b : List Order) : qtySum (a ++ b) = qtySum a + qtySum b := by
  simp [qtySum]

/-- In a book where no bid shares a price with an ask and keys are distinct,
the levels-index quantity of an ask level is just that level's queue sum. -/
theorem filter_price_qtySum (ls : List Level) (p : Int)
    (hkeys : (ls.map Prod.fst).Nodup)
    (hcoh : ∀ l ∈ ls, ∀ o ∈ l.2, o.price = l.1) :
    ∀ l ∈ ls, l.1 = p →
      qtySum ((flattenOrders ls).filter (fun o => o.price == p)) = qtySum l.2 := by
  induction ls with
  | nil => intro l hl; simp at hl
  | cons hd rest ih =>
    intro l hl hp
    simp only [List.map_cons, List.nodup_cons] at hkeys
    have hfl : flattenOrders (hd :: rest) = hd.2 ++ flattenOrders rest := by simp
    rw [hfl, List.filter_append, qtySum_append]
    rcases List.mem_cons.mp hl with he | hm
    · have hdp : hd.1 = p := by rw [← he]; exact hp
      have h1 : (hd.2).filter (fun o => o.price == p) = hd.2 := by
        apply List.filter_eq_self.mpr
        intro o ho
        simp [hcoh hd (List.mem_cons_self _ _) o ho, hdp]
      have h2 : (flattenOrders rest).filter (fun o => o.price == p) = [] := by
        apply List.filter_eq_nil_iff.mpr
        intro o ho
        rcases flattenOrders_mem_level rest o ho with ⟨l', hl', ho'⟩
        have hop : o.price = l'.1 := hcoh l' (List.mem_cons_of_mem _ hl') o ho'
        have hne : l'.1 ≠ p := by
          intro he'
          apply hkeys.1
          rw [hdp, ← he']
          exact List.mem_map.mpr ⟨l', hl', rfl⟩
        simp [hop, hne]
      rw [h1, h2, he]
      simp [qtySum]
    · have h1 : (hd.2).filter (fun o => o.price == p) = [] := by
        apply List.filter_eq_nil_iff.mpr
        intro o ho
        have hop : o.price = hd.1 := hcoh hd (List.mem_cons_self _ _) o ho
        have hne : hd.1 ≠ p := by
          intro he
          apply hkeys.1
          rw [← hp] at he
          rw [he]
          exact List.mem_map.mpr ⟨l, hm, rfl⟩
        simp [hop, hne]
      rw [h1]
      have := ih hkeys.2 (fun l' hl' => hcoh l' (List.mem_cons_of_mem _ hl')) l hm hp
      rw [this]
      simp [qtySum]

theorem filter_price_zero (ls : List Level) (p : Int)
    (hcoh : ∀ l ∈ ls, ∀ o ∈ l.2, o.price = l.1)
    (hne : ∀ l ∈ ls, l.1 ≠ p) :
    qtySum ((flattenOrders ls).filter (fun o => o.price == p)) = 0 := by
  have : (flattenOrders ls).filter (fun o => o.price == p) = [] := by
    apply List.filter_eq_nil_iff.mpr
    intro o ho
    rcases flattenOrders_mem_level ls o ho with ⟨l, hl, ho'⟩
    simp [hcoh l hl o ho', hne l hl]
  rw [this]
  rfl

namespace Book

/-- In a well-formed uncrossed book the levels-index quantity at an ask
price is exactly the ask queue's total (no bid rests at an ask price). -/
theorem levelQuantity_ask (b : Book) (h : b.WF) (hU : b.Uncrossed) :
    ∀ l ∈ b.asks, b.levelQuantity l.1 = qtySum l.2 := by
  intro l hl
  unfold Book.levelQuantity
  have hK := Book.uncrossed_allKeysLt b h.bidsSorted h.asksSorted hU
  have h0 : qtySum ((flattenOrders b.bids).filter (fun o => o.price == l.1)) = 0 :=
    filter_price_zero b.bids l.1 (fun l' hl' o ho => (h.bidsCoh l' hl' o ho).1)
      (fun l' hl' => ne_of_lt (hK l' hl' l hl))
  have h1 := filter_price_qtySum b.asks l.1
    (sortedKeys_nodup b.asks (fun a b => a < b) (fun a b hab => ne_of_lt hab)
      h.asksSorted)
    (fun l' hl' o ho => (h.asksCoh l' hl' o ho).1) l hl rfl
  rw [h0, h1]
  simp

/-- Symmetrically for bid prices. -/
theorem levelQuantity_bid (b : Book) (h : b.WF) (hU : b.Uncrossed) :
    ∀ l ∈ b.bids, b.levelQuantity l.1 = qtySum l.2 := by
  intro l hl
  unfold Book.levelQuantity
  have hK := Book.uncrossed_allKeysLt b h.bidsSorted h.asksSorted hU
  have h0 : qtySum ((flattenOrders b.asks).filter (fun o => o.price == l.1)) = 0 :=
    filter_price_zero b.asks l.1 (fun l' hl' o ho => (h.asksCoh l' hl' o ho).1)
      (fun l' hl' => (ne_of_lt (hK l hl l' hl')).symm)
  have h1 := filter_price_qtySum b.bids l.1
    (sortedKeys_nodup b.bids (fun a b => b < a) (fun a b hab => (ne_of_lt hab).symm)
      h.bidsSorted)
    (fun l' hl' o ho => (h.bidsCoh l' hl' o ho).1) l hl rfl
  rw [h0, h1]
  simp

/-- `CanFullyFill` for a buy bounds the needed quantity by the reachable ask
liquidity. -/
theorem canFullyFill_buy_le (b : Book) (h : b.WF) (hU : b.Uncrossed)
    (price : Int) (needed : Nat)
    (hcf : b.CanFullyFill Side.Buy price needed = true) :
    needed ≤ askReachable b.asks price := by
  unfold Book.CanFullyFill at hcf
  have := canFullyFillLoop_le b.levelQuantity (fun p => decide (p ≤ price)) needed
    b.asks 0 hcf
  rw [reachWalk_congr _ _ (fun l => qtySum l.2) _
    (fun l hl => levelQuantity_ask b h hU l hl)] at this
  simpa [askReachable] using this

/-- `CanFullyFill` for a sell bounds the needed quantity by the reachable
bid liquidity. -/
theorem canFullyFill_sell_le (b : Book) (h : b.WF) (hU : b.Uncrossed)
    (price : Int) (needed : Nat)
    (hcf : b.CanFullyFill Side.Sell price needed = true) :
    needed ≤ bidReachable b.bids price := by
  unfold Book.CanFullyFill at hcf
  have := canFullyFillLoop_le b.levelQuantity (fun p => decide (price ≤ p)) needed
    b.bids 0 hcf
  rw [reachWalk_congr _ _ (fun l => qtySum l.2) _
    (fun l hl => levelQuantity_bid b h hU l hl)] at this
  simpa [bidReachable] using this

end Book

theorem askReachable_pos_head (asks : List Level) (p : Int)
    (h : 0 < askReachable asks p) :
    ∃ k os atl, asks = (k, os) :: atl ∧ k ≤ p := by
  cases asks with
  | nil => simp [askReachable, reachWalk] at h
  | cons l atl =>
    obtain ⟨k, os⟩ := l
    unfold askReachable reachWalk at h
    by_cases hk : k ≤ p
    · exact ⟨k, os, atl, rfl, hk⟩
    · simp [hk] at h

theorem bidReachable_pos_head (bids : List Level) (p : Int)
    (h : 0 < bidReachable bids p) :
    ∃ k os btl, bids = (k, os) :: btl ∧ p ≤ k := by
  cases bids with
  | nil => simp [bidReachable, reachWalk] at h
  | cons l btl =>
    obtain ⟨k, os⟩ := l
    unfold bidReachable reachWalk at h
    by_cases hk : p ≤ k
    · exact ⟨k, os, btl, rfl, hk⟩
    · simp [hk] at h

/-- Core of FillOrKill completion, buy side: an order resting alone at the
top of the bid side whose remaining quantity is covered by the reachable
ask liquidity is fully consumed by the matching loop: its id is gone from
both sides and its traded quantity equals its remaining quantity. -/
theorem matchLoop_fok_buy (fuel : Nat) :
    ∀ (o : Order) (p : Int) (btl asks : List Level),
      o.orderId ∉ flattenIds btl →
      o.orderId ∉ flattenIds asks →
      levelsNE asks →
      (∀ x ∈ flattenOrders asks, 0 < x.remainingQuantity) →
      0 < o.remainingQuantity →
      o.remainingQuantity ≤ askReachable asks p →
      (flattenOrders asks).length + 1 ≤ fuel →
      o.orderId ∉ flattenIds (matchLoop fuel ((p, [o]) :: btl) asks).2.1 ∧
      o.orderId ∉ flattenIds (matchLoop fuel ((p, [o]) :: btl) asks).2.2 ∧
      tradedQty (matchLoop fuel ((p, [o]) :: btl) asks).1 o.orderId =
        o.remainingQuantity := by
  induction fuel with
  | zero =>
    intro o p btl asks _ _ _ _ _ _ hfuel
    omega
  | succ n ih =>
    intro o p btl asks hfB hfA hNE hpos hrem hliq hfuel
    match asks with
    | [] =>
      exfalso
      simp [askReachable, reachWalk] at hliq
      omega
    | (ap, []) :: atl =>
      exact absurd rfl (hNE (ap, []) (List.mem_cons_self _ _))
    | (ap, ask :: aqRest) :: atl =>
      have haskpos : 0 < ask.remainingQuantity := hpos ask (by simp)
      by_cases hlt : p < ap
      · exfalso
        have hz : askReachable ((ap, ask :: aqRest) :: atl) p = 0 := by
          unfold askReachable reachWalk
          simp [not_le.mpr hlt]
        rw [hz] at hliq
        omega
      · have hple : ap ≤ p := le_of_not_lt hlt
        have hexp : askReachable ((ap, ask :: aqRest) :: atl) p =
            ask.remainingQuantity + qtySum aqRest + askReachable atl p := by
          unfold askReachable
          rw [reachWalk_cons, if_pos (by simpa using hple), qtySum_cons]
        have hneid : ask.orderId ≠ o.orderId := by
          intro he
          apply hfA
          rw [← he]
          simp
        simp only [matchLoop, if_neg hlt]
        by_cases hc : o.remainingQuantity ≤ ask.remainingQuantity
        · have hq : min o.remainingQuantity ask.remainingQuantity =
              o.remainingQuantity := min_eq_left hc
          have hstepB : stepSide p o [] btl
              (min o.remainingQuantity ask.remainingQuantity) = btl := by
            rw [stepSide_eq]
            simp [hq]
          have hidsB := (matchLoop_ids_sublist n
            (stepSide p o [] btl (min o.remainingQuantity ask.remainingQuantity))
            (stepSide ap ask aqRest atl
              (min o.remainingQuantity ask.remainingQuantity))).1
          have hidsA := (matchLoop_ids_sublist n
            (stepSide p o [] btl (min o.remainingQuantity ask.remainingQuantity))
            (stepSide ap ask aqRest atl
              (min o.remainingQuantity ask.remainingQuantity))).2
          have hAsub : List.Sublist (flattenIds (stepSide ap ask aqRest atl
              (min o.remainingQuantity ask.remainingQuantity)))
              (flattenIds ((ap, ask :: aqRest) :: atl)) :=
            stepSide_ids_sublist _ _ _ _ _
          have hBnot : o.orderId ∉ flattenIds (matchLoop n
              (stepSide p o [] btl (min o.remainingQuantity ask.remainingQuantity))
              (stepSide ap ask aqRest atl
                (min o.remainingQuantity ask.remainingQuantity))).2.1 := by
            intro hcm
            apply hfB
            have := hidsB.mem hcm
            rw [hstepB] at this
            exact this
          have hAnot : o.orderId ∉ flattenIds (matchLoop n
              (stepSide p o [] btl (min o.remainingQuantity ask.remainingQuantity))
              (stepSide ap ask aqRest atl
                (min o.remainingQuantity ask.remainingQuantity))).2.2 := by
            intro hcm
            exact hfA (hAsub.mem (hidsA.mem hcm))
          refine ⟨hBnot, hAnot, ?_⟩
          rw [tradedQty_cons]
          have htz : tradedQty (matchLoop n
              (stepSide p o [] btl (min o.remainingQuantity ask.remainingQuantity))
              (stepSide ap ask aqRest atl
                (min o.remainingQuantity ask.remainingQuantity))).1 o.orderId = 0 := by
            apply tradedQty_zero
            intro t ht
            have hids := matchLoop_trade_ids n _ _ t ht
            constructor
            · intro he
              apply hfB
              have := hids.1
              rw [he, hstepB] at this
              exact this
            · intro he
              apply hfA
              apply hAsub.mem
              rw [← he]
              exact hids.2
          rw [htz]
          show ((if o.orderId = o.orderId then
              min o.remainingQuantity ask.remainingQuantity else 0) +
            (if ask.orderId = o.orderId then
              min o.remainingQuantity ask.remainingQuantity else 0)) + 0 =
            o.remainingQuantity
          rw [if_pos rfl, if_neg hneid, hq]
          omega
        · have hcl : ask.remainingQuantity < o.remainingQuantity := not_le.mp hc
          have hq : min o.remainingQuantity ask.remainingQuantity =
              ask.remainingQuantity := min_eq_right (le_of_lt hcl)
          have hstepB : stepSide p o [] btl
              (min o.remainingQuantity ask.remainingQuantity) =
              (p, [{ o with remainingQuantity :=
                o.remainingQuantity - ask.remainingQuantity }]) :: btl := by
            rw [stepSide_eq]
            rw [if_neg (by omega)]
            rw [hq]
          have hreachNew : askReachable (stepSide ap ask aqRest atl
              (min o.remainingQuantity ask.remainingQuantity)) p =
              qtySum aqRest + askReachable atl p := by
            rw [stepSide_eq]
            rw [if_pos (by omega)]
            by_cases haq : aqRest = []
            · rw [if_pos haq]
              rw [haq]
              simp [qtySum]
            · rw [if_neg haq]
              unfold askReachable
              rw [reachWalk_cons, if_pos (by simpa using hple)]
          have hlenNew : (flattenOrders (stepSide ap ask aqRest atl
              (min o.remainingQuantity ask.remainingQuantity))).length + 1 =
              (flattenOrders ((ap, ask :: aqRest) :: atl)).length := by
            rw [stepSide_eq]
            rw [if_pos (by omega)]
            by_cases haq : aqRest = []
            · rw [if_pos haq]
              rw [haq]
              simp
            · rw [if_neg haq]
              simp
          have hih := ih { o with remainingQuantity :=
              o.remainingQuantity - ask.remainingQuantity } p btl
            (stepSide ap ask aqRest atl
              (min o.remainingQuantity ask.remainingQuantity))
            hfB
            (fun hcm => hfA ((stepSide_ids_sublist _ _ _ _ _).mem hcm))
            (stepSide_NE _ _ _ _ _ hNE)
            (stepSide_pos _ _ _ _ _ hpos)
            (by show 0 < o.remainingQuantity - ask.remainingQuantity; omega)
            (by
              show o.remainingQuantity - ask.remainingQuantity ≤
                askReachable (stepSide ap ask aqRest atl
                  (min o.remainingQuantity ask.remainingQuantity)) p
              rw [hreachNew]
              rw [hexp] at hliq
              omega)
            (by rw [hlenNew]; omega)
          rw [← hstepB] at hih
          refine ⟨hih.1, hih.2.1, ?_⟩
          rw [tradedQty_cons, hih.2.2]
          show ((if o.orderId = o.orderId then
              min o.remainingQuantity ask.remainingQuantity else 0) +
            (if ask.orderId = o.orderId then
              min o.remainingQuantity ask.remainingQuantity else 0)) +
            (o.remainingQuantity - ask.remainingQuantity) = o.remainingQuantity
          rw [if_pos rfl, if_neg hneid, hq]
          omega

/-- Core of FillOrKill completion, sell side (mirror image of
`matchLoop_fok_buy`). -/
theorem matchLoop_fok_sell (fuel : Nat) :
    ∀ (o : Order) (p : Int) (atl bids : List Level),
      o.orderId ∉ flattenIds atl →
      o.orderId ∉ flattenIds bids →
      levelsNE bids →
      (∀ x ∈ flattenOrders bids, 0 < x.remainingQuantity) →
      0 < o.remainingQuantity →
      o.remainingQuantity ≤ bidReachable bids p →
      (flattenOrders bids).length + 1 ≤ fuel →
      o.orderId ∉ flattenIds (matchLoop fuel bids ((p, [o]) :: atl)).2.1 ∧
      o.orderId ∉ flattenIds (matchLoop fuel bids ((p, [o]) :: atl)).2.2 ∧
      tradedQty (matchLoop fuel bids ((p, [o]) :: atl)).1 o.orderId =
        o.remainingQuantity := by
  induction fuel with
  | zero =>
    intro o p atl bids _ _ _ _ _ _ hfuel
    omega
  | succ n ih =>
    intro o p atl bids hfA hfB hNE hpos hrem hliq hfuel
    match bids with
    | [] =>
      exfalso
      simp [bidReachable, reachWalk] at hliq
      omega
    | (bp, []) :: btl =>
      exact absurd rfl (hNE (bp, []) (List.mem_cons_self _ _))
    | (bp, bid :: bqRest) :: btl =>
      have hbidpos : 0 < bid.remainingQuantity := hpos bid (by simp)
      by_cases hlt : bp < p
      · exfalso
        have hz : bidReachable ((bp, bid :: bqRest) :: btl) p = 0 := by
          unfold bidReachable reachWalk
          simp [not_le.mpr hlt]
        rw [hz] at hliq
        omega
      · have hple : p ≤ bp := le_of_not_lt hlt
        have hexp : bidReachable ((bp, bid :: bqRest) :: btl) p =
            bid.remainingQuantity + qtySum bqRest + bidReachable btl p := by
          unfold bidReachable
          rw [reachWalk_cons, if_pos (by simpa using hple), qtySum_cons]
        have hneid : bid.orderId ≠ o.orderId := by
          intro he
          apply hfB
          rw [← he]
          simp
        simp only [matchLoop, if_neg hlt]
        by_cases hc : o.remainingQuantity ≤ bid.remainingQuantity
        · have hq : min bid.remainingQuantity o.remainingQuantity =
              o.remainingQuantity := min_eq_right hc
          have hstepA : stepSide p o [] atl
              (min bid.remainingQuantity o.remainingQuantity) = atl := by
            rw [stepSide_eq]
            simp [hq]
          have hidsB := (matchLoop_ids_sublist n
            (stepSide bp bid bqRest btl (min bid.remainingQuantity o.remainingQuantity))
            (stepSide p o [] atl (min bid.remainingQuantity o.remainingQuantity))).1
          have hidsA := (matchLoop_ids_sublist n
            (stepSide bp bid bqRest btl (min bid.remainingQuantity o.remainingQuantity))
            (stepSide p o [] atl (min bid.remainingQuantity o.remainingQuantity))).2
          have hBsub : List.Sublist (flattenIds (stepSide bp bid bqRest btl
              (min bid.remainingQuantity o.remainingQuantity)))
              (flattenIds ((bp, bid :: bqRest) :: btl)) :=
            stepSide_ids_sublist _ _ _ _ _
          have hBnot : o.orderId ∉ flattenIds (matchLoop n
              (stepSide bp bid bqRest btl (min bid.remainingQuantity o.remainingQuantity))
              (stepSide p o [] atl (min bid.remainingQuantity o.remainingQuantity))).2.1 := by
            intro hcm
            exact hfB (hBsub.mem (hidsB.mem hcm))
          have hAnot : o.orderId ∉ flattenIds (matchLoop n
              (stepSide bp bid bqRest btl (min bid.remainingQuantity o.remainingQuantity))
              (stepSide p o [] atl (min bid.remainingQuantity o.remainingQuantity))).2.2 := by
            intro hcm
            apply hfA
            have := hidsA.mem hcm
            rw [hstepA] at this
            exact this
          refine ⟨hBnot, hAnot, ?_⟩
          rw [tradedQty_cons]
          have htz : tradedQty (matchLoop n
              (stepSide bp bid bqRest btl (min bid.remainingQuantity o.remainingQuantity))
              (stepSide p o [] atl (min bid.remainingQuantity o.remainingQuantity))).1
              o.orderId = 0 := by
            apply tradedQty_zero
            intro t ht
            have hids := matchLoop_trade_ids n _ _ t ht
            constructor
            · intro he
              apply hfB
              apply hBsub.mem
              rw [← he]
              exact hids.1
            · intro he
              apply hfA
              have := hids.2
              rw [he, hstepA] at this
              exact this
          rw [htz]
          show ((if bid.orderId = o.orderId then
              min bid.remainingQuantity o.remainingQuantity else 0) +
            (if o.orderId = o.orderId then
              min bid.remainingQuantity o.remainingQuantity else 0)) + 0 =
            o.remainingQuantity
          rw [if_pos rfl, if_neg hneid, hq]
          omega
        · have hcl : bid.remainingQuantity < o.remainingQuantity := not_le.mp hc
          have hq : min bid.remainingQuantity o.remainingQuantity =
              bid.remainingQuantity := min_eq_left (le_of_lt hcl)
          have hstepA : stepSide p o [] atl
              (min bid.remainingQuantity o.remainingQuantity) =
              (p, [{ o with remainingQuantity :=
                o.remainingQuantity - bid.remainingQuantity }]) :: atl := by
            rw [stepSide_eq]
            rw [if_neg (by omega)]
            rw [hq]
          have hreachNew : bidReachable (stepSide bp bid bqRest btl
              (min bid.remainingQuantity o.remainingQuantity)) p =
              qtySum bqRest + bidReachable btl p := by
            rw [stepSide_eq]
            rw [if_pos (by omega)]
            by_cases hbq : bqRest = []
            · rw [if_pos hbq]
              rw [hbq]
              simp [qtySum]
            · rw [if_neg hbq]
              unfold bidReachable
              rw [reachWalk_cons, if_pos (by simpa using hple)]
          have hlenNew : (flattenOrders (stepSide bp bid bqRest btl
              (min bid.remainingQuantity o.remainingQuantity))).length + 1 =
              (flattenOrders ((bp, bid :: bqRest) :: btl)).length := by
            rw [stepSide_eq]
            rw [if_pos (by omega)]
            by_cases hbq : bqRest = []
            · rw [if_pos hbq]
              rw [hbq]
              simp
            · rw [if_neg hbq]
              simp
          have hih := ih { o with remainingQuantity :=
              o.remainingQuantity - bid.remainingQuantity } p atl
            (stepSide bp bid bqRest btl
              (min bid.remainingQuantity o.remainingQuantity))
            hfA
            (fun hcm => hfB ((stepSide_ids_sublist _ _ _ _ _).mem hcm))
            (stepSide_NE _ _ _ _ _ hNE)
            (stepSide_pos _ _ _ _ _ hpos)
            (by show 0 < o.remainingQuantity - bid.remainingQuantity; omega)
            (by
              show o.remainingQuantity - bid.remainingQuantity ≤
                bidReachable (stepSide bp bid bqRest btl
                  (min bid.remainingQuantity o.remainingQuantity)) p
              rw [hreachNew]
              rw [hexp] at hliq
              omega)
            (by rw [hlenNew]; omega)
          rw [← hstepA] at hih
          refine ⟨hih.1, hih.2.1, ?_⟩
          rw [tradedQty_cons, hih.2.2]
          show ((if bid.orderId = o.orderId then
              min bid.remainingQuantity o.remainingQuantity else 0) +
            (if o.orderId = o.orderId then
              min bid.remainingQuantity o.remainingQuantity else 0)) +
            (o.remainingQuantity - bid.remainingQuantity) = o.remainingQuantity
          rw [if_pos rfl, if_neg hneid, hq]
          omega

/-- Cancellation never introduces an id: an id absent from the book is still
absent after any `CancelOrder`. -/
theorem Book.cancel_ids_mono (b : Book) (id id' : Nat) (h : id ∉ b.ids) :
    id ∉ (b.CancelOrder id').ids := by
  intro hm
  apply h
  unfold Book.ids at hm ⊢
  obtain ⟨x, hx, hxe⟩ := List.mem_map.mp hm
  exact List.mem_map.mpr ⟨x, CancelOrder_subset b id' x hx, hxe⟩

/-- The bid-side FillAndKill sweep never introduces an id. -/
theorem sweepBids_ids_mono (b : Book) (id : Nat) (h : id ∉ b.ids) :
    id ∉ (Book.sweepTopFAKBids b).ids := by
  rcases Book.sweepTopFAKBids_cases b with he | ⟨i, he⟩
  · rw [he]; exact h
  · rw [he]; exact Book.cancel_ids_mono b id i h

/-- The ask-side FillAndKill sweep never introduces an id. -/
theorem sweepAsks_ids_mono (b : Book) (id : Nat) (h : id ∉ b.ids) :
    id ∉ (Book.sweepTopFAKAsks b).ids := by
  rcases Book.sweepTopFAKAsks_cases b with he | ⟨i, he⟩
  · rw [he]; exact h
  · rw [he]; exact Book.cancel_ids_mono b id i h

/-- Claim C2: for every AddOrder of a fresh FillOrKill order on a
well-formed, uncrossed book whose resting quantities are positive: if
`CanFullyFill` denies the full quantity, the call returns an empty trade
list and the book (hence every derived view: by-id map, levels index)
exactly as it was; otherwise the order is admitted and matching completes
the full quantity — the traded quantity credited to the order equals its
initial quantity and the order does not rest in the returned book. -/
theorem claim_C2_fok (b : Book) (o : Order)
    (hW : b.WF) (hU : b.Uncrossed) (hR : b.RemBounded)
    (hT : o.orderType = OrderType.FillOrKill)
    (hc : b.contains o.orderId = false)
    (hri : o.remainingQuantity = o.initialQuantity)
    (hpos : 0 < o.initialQuantity) :
    (b.CanFullyFill o.side o.price o.initialQuantity = false →
      b.AddOrder o = ([], b)) ∧
    (b.CanFullyFill o.side o.price o.initialQuantity = true →
      (b.AddOrder o).2.contains o.orderId = false ∧
      tradedQty (b.AddOrder o).1 o.orderId = o.initialQuantity) := by
  constructor
  · intro hcf
    exact Book.AddOrder_eq_rejectFOK b o hc hT hcf
  · intro hcf
    have hM : o.orderType ≠ OrderType.Market := by rw [hT]; simp
    have hadd : b.AddOrder o = b.addAndMatch o :=
      Book.AddOrder_eq_accept b o hc hM
        (fun h' => by rw [hT] at h'; exact absurd h' (by decide))
        (fun _ => hcf)
    have hfresh : o.orderId ∉ b.ids := by
      have := (Book.contains_false_iff b o.orderId).mp hc
      exact this
    rw [Book.ids_eq] at hfresh
    have hfB : o.orderId ∉ flattenIds b.bids :=
      fun hm => hfresh (List.mem_append.mpr (Or.inl hm))
    have hfA : o.orderId ∉ flattenIds b.asks :=
      fun hm => hfresh (List.mem_append.mpr (Or.inr hm))
    rw [hadd]
    unfold Book.addAndMatch
    rcases hside : o.side with _ | _
    · have hliq : o.initialQuantity ≤ askReachable b.asks o.price := by
        apply Book.canFullyFill_buy_le b hW hU o.price o.initialQuantity
        rw [← hside]
        exact hcf
      have hreachpos : 0 < askReachable b.asks o.price :=
        lt_of_lt_of_le hpos hliq
      obtain ⟨k, os, atl, ha, hk⟩ := askReachable_pos_head b.asks o.price hreachpos
      have hkeys : ∀ l ∈ b.bids, l.1 < o.price :=
        Book.bidKeys_lt b o.price hW hU (k, os) atl ha hk
      rw [Book.insertOrder_front_buy b o hside hkeys]
      have hfuel : (flattenOrders b.asks).length + 1 ≤
          (Book.mk ((o.price, [o]) :: b.bids) b.asks).orderCount + 1 := by
        simp only [Book.orderCount, Book.allOrders, List.length_append]
        omega
      have hml := matchLoop_fok_buy
        ((Book.mk ((o.price, [o]) :: b.bids) b.asks).orderCount + 1)
        o o.price b.bids b.asks hfB hfA hW.asksNE
        (fun x hx => (hR x (List.mem_append.mpr (Or.inr hx))).1)
        (by rw [hri]; exact hpos) (by rw [hri]; exact hliq) hfuel
      constructor
      · rw [Book.MatchOrders_snd2, Book.contains_false_iff]
        apply sweepAsks_ids_mono
        apply sweepBids_ids_mono
        rw [Book.ids_eq]
        dsimp only
        intro hm
        rcases List.mem_append.mp hm with hm' | hm'
        · exact hml.1 hm'
        · exact hml.2.1 hm'
      · rw [Book.MatchOrders_fst]
        dsimp only
        rw [← hri]
        exact hml.2.2
    · have hliq : o.initialQuantity ≤ bidReachable b.bids o.price := by
        apply Book.canFullyFill_sell_le b hW hU o.price o.initialQuantity
        rw [← hside]
        exact hcf
      have hreachpos : 0 < bidReachable b.bids o.price :=
        lt_of_lt_of_le hpos hliq
      obtain ⟨k, os, btl, hb, hk⟩ := bidReachable_pos_head b.bids o.price hreachpos
      have hkeys : ∀ l ∈ b.asks, o.price < l.1 :=
        Book.askKeys_gt b o.price hW hU (k, os) btl hb hk
      rw [Book.insertOrder_front_sell b o hside hkeys]
      have hfuel : (flattenOrders b.bids).length + 1 ≤
          (Book.mk b.bids ((o.price, [o]) :: b.asks)).orderCount + 1 := by
        simp only [Book.orderCount, Book.allOrders, List.length_append]
        omega
      have hml := matchLoop_fok_sell
        ((Book.mk b.bids ((o.price, [o]) :: b.asks)).orderCount + 1)
        o o.price b.asks b.bids hfA hfB hW.bidsNE
        (fun x hx => (hR x (List.mem_append.mpr (Or.inl hx))).1)
        (by rw [hri]; exact hpos) (by rw [hri]; exact hliq) hfuel
      constructor
      · rw [Book.MatchOrders_snd2, Book.contains_false_iff]
        apply sweepAsks_ids_mono
        apply sweepBids_ids_mono
        rw [Book.ids_eq]
        dsimp only
        intro hm
        rcases List.mem_append.mp hm with hm' | hm'
        · exact hml.1 hm'
        · exact hml.2.1 hm'
      · rw [Book.MatchOrders_fst]
        dsimp only
        rw [← hri]
        exact hml.2.2

/-- Witness for C2 on the scenario-D book: a FillOrKill buy for 11 at 101
is rejected outright (only 10 is reachable), while one for 8 fills its full
quantity and does not rest. -/
theorem claim_C2_fok_witness :
    (bookD.AddOrder ⟨OrderType.FillOrKill, 21, Side.Buy, 101, 11, 11⟩ =
      ([], bookD)) ∧
    ((bookD.AddOrder ⟨OrderType.FillOrKill, 20, Side.Buy, 101, 8, 8⟩).2.contains
        20 = false ∧
      tradedQty (bookD.AddOrder
        ⟨OrderType.FillOrKill, 20, Side.Buy, 101, 8, 8⟩).1 20 = 8) := by
  refine ⟨?_, ?_⟩
  · exact (claim_C2_fok bookD ⟨OrderType.FillOrKill, 21, Side.Buy, 101, 11, 11⟩
      (by decide) (by decide) (by decide) rfl (by decide) rfl
      (by decide)).1 (by decide)
  · exact (claim_C2_fok bookD ⟨OrderType.FillOrKill, 20, Side.Buy, 101, 8, 8⟩
      (by decide) (by decide) (by decide) rfl (by decide) rfl
      (by decide)).2 (by decide)

/-- Claim C3: an AddOrder on a well-formed, uncrossed book holding no
FillAndKill order leaves no FillAndKill order resting anywhere: a FillAndKill
either matched completely, had its residual cancelled by the post-match
sweep, or was rejected before insertion; so a momentarily resting
FillAndKill is never observable to callers. -/
theorem claim_C3_noRestingFAK (b : Book) (o : Order) (h : b.WF)
    (hU : b.Uncrossed) (hN : b.NoRestingFAK) :
    (b.AddOrder o).2.NoRestingFAK := by
  by_cases hc : b.contains o.orderId = true
  · rw [Book.AddOrder_eq_dup b o hc]; exact hN
  · have hc' : b.contains o.orderId = false := by
      cases hcb : b.contains o.orderId
      · rfl
      · exact absurd hcb hc
    have hfresh : o.orderId ∉ b.ids := (Book.contains_false_iff b o.orderId).mp hc'
    by_cases hM : o.orderType = OrderType.Market
    · cases hw : b.worstOppositePrice o.side o.initialQuantity with
      | none => rw [Book.AddOrder_eq_market_none b o hc' hM hw]; exact hN
      | some wp =>
        rw [Book.AddOrder_eq_market_some b o hc' hM wp hw]
        exact Book.addAndMatch_noFAK _ _ hN (by simp)
    · by_cases hFAK : o.orderType = OrderType.FillAndKill ∧
        b.CanMatch o.side o.price = false
      · rw [Book.AddOrder_eq_rejectFAK b o hc' hFAK.1 hFAK.2]; exact hN
      · by_cases hFOK : o.orderType = OrderType.FillOrKill ∧
          b.CanFullyFill o.side o.price o.initialQuantity = false
        · rw [Book.AddOrder_eq_rejectFOK b o hc' hFOK.1 hFOK.2]; exact hN
        · have hFAKhyp : o.orderType = OrderType.FillAndKill →
            b.CanMatch o.side o.price = true := by
            intro hT
            cases hcm : b.CanMatch o.side o.price
            · exact absurd ⟨hT, hcm⟩ hFAK
            · rfl
          rw [Book.AddOrder_eq_accept b o hc' hM hFAKhyp ?_]
          · by_cases hT : o.orderType = OrderType.FillAndKill
            · cases hside : o.side with
              | Buy =>
                exact Book.addFAK_noFAK_buy b o h hU hN hT hside (hFAKhyp hT)
              | Sell =>
                exact Book.addFAK_noFAK_sell b o h hU hN hT hside (hFAKhyp hT) hfresh
            · exact Book.addAndMatch_noFAK _ _ hN hT
          · intro hT
            cases hcf : b.CanFullyFill o.side o.price o.initialQuantity
            · exact absurd ⟨hT, hcf⟩ hFOK
            · rfl

/-- Witness for C3: a partially fillable FillAndKill buy on the scenario-D
book does not rest after AddOrder returns. -/
theorem claim_C3_noRestingFAK_witness :
    (bookD.AddOrder ⟨OrderType.FillAndKill, 2, Side.Buy, 100, 10, 10⟩).2.NoRestingFAK :=
  claim_C3_noRestingFAK bookD ⟨OrderType.FillAndKill, 2, Side.Buy, 100, 10, 10⟩
    (by decide) (by decide) (by decide)

/-- Witness for C10: the two trades of a crossing buy on the scenario-D book
both satisfy the price bound. -/
theorem claim_C10_trade_prices_witness :
    ((100 : Int) ≤ (101 : Int)) ∧ ((101 : Int) ≤ (101 : Int)) :=
  ⟨(claim_C10_trade_prices bookD ⟨OrderType.GoodTillCancel, 20, Side.Buy, 101, 8, 8⟩
      ⟨11, 99, Side.Sell, 2⟩ (by decide) (by decide)).1
      (Trade.mk ⟨20, 101, 5⟩ ⟨10, 100, 5⟩) (by decide),
   (claim_C10_trade_prices bookD ⟨OrderType.GoodTillCancel, 20, Side.Buy, 101, 8, 8⟩
      ⟨11, 99, Side.Sell, 2⟩ (by decide) (by decide)).1
      (Trade.mk ⟨20, 101, 3⟩ ⟨11, 101, 3⟩) (by decide)⟩

end OBook
